import Mathlib

/-!
Verification development for the kindle-to-obsidian core
(`src/core/parser.py` and `src/core/writer.py`).

Text is modelled as `List Char` (Python `str`); machine integers as `Nat`
with explicit `% 2 ^ 32` where the SHA-256 arithmetic overflows; the
filesystem as an explicit record threaded through the writer functions;
fallible operations return `Except Unit`.

External collaborators that cannot be embedded are taken as parameters:
`parseDate` stands for `dateutil.parser.parse` (the code only stores the
result, or `None` on failure, and uses it inside a sort key), and `nfkd`
stands for `unicodedata.normalize("NFKD", _)` (a pure string-to-string
function used only inside `sanitize_filename`).  All theorems hold for
every choice of these parameters.
-/

namespace KTO

/-- Text is a list of characters (shallow embedding of Python `str`). -/
abbrev Str := List Char

/-- Whitespace stripped by Python `str.strip()`, restricted to the ASCII
whitespace characters (Python additionally strips rare Unicode spaces). -/
def isPySpace (c : Char) : Bool :=
  c = ' ' || c = '\t' || c = '\n' || c = '\r' || c = Char.ofNat 11 || c = Char.ofNat 12

/-- Python `str.lstrip()`. -/
def lstrip (l : Str) : Str := l.dropWhile isPySpace

/-- Python `str.rstrip()`. -/
def rstrip (l : Str) : Str := (l.reverse.dropWhile isPySpace).reverse

/-- Python `str.strip()`. -/
def pyStrip (l : Str) : Str := rstrip (lstrip l)

/-! ## SHA-256 (`hashlib.sha256`), executable, over byte lists -/

/-- Word modulus, 2 ^ 32. -/
def M32 : Nat := 4294967296

/-- Right rotation of a 32-bit word. -/
def rotr (n x : Nat) : Nat := (x / 2 ^ n + x % 2 ^ n * 2 ^ (32 - n)) % M32

def bigSig0 (x : Nat) : Nat := rotr 2 x ^^^ rotr 13 x ^^^ rotr 22 x
def bigSig1 (x : Nat) : Nat := rotr 6 x ^^^ rotr 11 x ^^^ rotr 25 x
def smallSig0 (x : Nat) : Nat := rotr 7 x ^^^ rotr 18 x ^^^ x / 2 ^ 3
def smallSig1 (x : Nat) : Nat := rotr 17 x ^^^ rotr 19 x ^^^ x / 2 ^ 10
def chFn (x y z : Nat) : Nat := (x &&& y) ^^^ ((x ^^^ 4294967295) &&& z)
def majFn (x y z : Nat) : Nat := (x &&& y) ^^^ (x &&& z) ^^^ (y &&& z)

/-- The 64 SHA-256 round constants. -/
def shaK : List Nat :=
  [1116352408, 1899447441, 3049323471, 3921009573, 961987163, 1508970993,
   2453635748, 2870763221, 3624381080, 310598401, 607225278, 1426881987,
   1925078388, 2162078206, 2614888103, 3248222580, 3835390401, 4022224774,
   264347078, 604807628, 770255983, 1249150122, 1555081692, 1996064986,
   2554220882, 2821834349, 2952996808, 3210313671, 3336571891, 3584528711,
   113926993, 338241895, 666307205, 773529912, 1294757372, 1396182291,
   1695183700, 1986661051, 2177026350, 2456956037, 2730485921, 2820302411,
   3259730800, 3345764771, 3516065817, 3600352804, 4094571909, 275423344,
   430227734, 506948616, 659060556, 883997877, 958139571, 1322822218,
   1537002063, 1747873779, 1955562222, 2024104815, 2227730452, 2361852424,
   2428436474, 2756734187, 3204031479, 3329325298]

/-- The eight-word SHA-256 state. -/
structure H8 where
  a : Nat
  b : Nat
  c : Nat
  d : Nat
  e : Nat
  f : Nat
  g : Nat
  h : Nat
deriving DecidableEq, Repr

def initH : H8 :=
  ⟨1779033703, 3144134277, 1013904242, 2773480762,
   1359893119, 2600822924, 528734635, 1541459225⟩

/-- Pack big-endian 4-byte groups into 32-bit words. -/
def toWords : List Nat → List Nat
  | b0 :: b1 :: b2 :: b3 :: rest =>
      (b0 % 256 * 16777216 + b1 % 256 * 65536 + b2 % 256 * 256 + b3 % 256) :: toWords rest
  | _ => []

/-- One message-schedule extension step. -/
def scheduleStep (ws : List Nat) : List Nat :=
  ws ++ [(smallSig1 (ws.getD (ws.length - 2) 0) + ws.getD (ws.length - 7) 0 +
          smallSig0 (ws.getD (ws.length - 15) 0) + ws.getD (ws.length - 16) 0) % M32]

def buildSchedule (ws : List Nat) : Nat → List Nat
  | 0 => ws
  | n + 1 => buildSchedule (scheduleStep ws) n

/-- Extend 16 message words to the 64-entry schedule. -/
def fullSchedule (ws : List Nat) : List Nat := buildSchedule ws 48

/-- One compression round. -/
def roundStep (st : H8) (k w : Nat) : H8 :=
  let t1 := (st.h + bigSig1 st.e + chFn st.e st.f st.g + k + w) % M32
  let t2 := (bigSig0 st.a + majFn st.a st.b st.c) % M32
  { a := (t1 + t2) % M32, b := st.a, c := st.b, d := st.c,
    e := (st.d + t1) % M32, f := st.e, g := st.f, h := st.g }

/-- Compress one 64-byte chunk into the running state. -/
def compressChunk (st : H8) (chunk : List Nat) : H8 :=
  let ws := fullSchedule (toWords chunk)
  let fin := (shaK.zip ws).foldl (fun s kw => roundStep s kw.1 kw.2) st
  { a := (st.a + fin.a) % M32, b := (st.b + fin.b) % M32,
    c := (st.c + fin.c) % M32, d := (st.d + fin.d) % M32,
    e := (st.e + fin.e) % M32, f := (st.f + fin.f) % M32,
    g := (st.g + fin.g) % M32, h := (st.h + fin.h) % M32 }

/-- Big-endian eight-byte length field. -/
def lenBytes (n : Nat) : List Nat :=
  [n / 2 ^ 56 % 256, n / 2 ^ 48 % 256, n / 2 ^ 40 % 256, n / 2 ^ 32 % 256,
   n / 2 ^ 24 % 256, n / 2 ^ 16 % 256, n / 2 ^ 8 % 256, n % 256]

/-- SHA-256 message padding. -/
def padMsg (msg : List Nat) : List Nat :=
  msg ++ [128] ++ List.replicate ((119 - msg.length % 64) % 64) 0 ++ lenBytes (8 * msg.length)

/-- Cut a message into 64-byte chunks (fuel-driven; the fuel is always
sufficient at the call site). -/
def chunks64 : Nat → List Nat → List (List Nat)
  | 0, _ => []
  | _, [] => []
  | fuel + 1, l => l.take 64 :: chunks64 fuel (l.drop 64)

/-- Big-endian bytes of a 32-bit word. -/
def wordBytes (w : Nat) : List Nat :=
  [w / 16777216 % 256, w / 65536 % 256, w / 256 % 256, w % 256]

/-- The 32-byte SHA-256 digest of a byte string. -/
def sha256Bytes (msg : List Nat) : List Nat :=
  let p := padMsg msg
  let st := (chunks64 p.length p).foldl compressChunk initH
  [st.a, st.b, st.c, st.d, st.e, st.f, st.g, st.h].flatMap wordBytes

/-- One lowercase hexadecimal digit. -/
def hexChar : Nat → Char
  | 0 => '0' | 1 => '1' | 2 => '2' | 3 => '3' | 4 => '4' | 5 => '5' | 6 => '6' | 7 => '7'
  | 8 => '8' | 9 => '9' | 10 => 'a' | 11 => 'b' | 12 => 'c' | 13 => 'd' | 14 => 'e' | 15 => 'f'
  | _ => '0'

/-- Two hex digits of a byte (`hexdigest` building block). -/
def byteHex (b : Nat) : Str := [hexChar (b / 16 % 16), hexChar (b % 16)]

/-- Lowercase hexdigest of a byte string. -/
def bytesToHex (bs : List Nat) : Str := bs.flatMap byteHex

/-- UTF-8 bytes of one character (Python `str.encode("utf-8")`). -/
def utf8Char (c : Char) : List Nat :=
  let n := c.toNat
  if n < 128 then [n]
  else if n < 2048 then [192 + n / 64, 128 + n % 64]
  else if n < 65536 then [224 + n / 4096, 128 + n / 64 % 64, 128 + n % 64]
  else [240 + n / 262144, 128 + n / 4096 % 64, 128 + n / 64 % 64, 128 + n % 64]

def utf8Encode (s : Str) : List Nat := s.flatMap utf8Char

/-- `generate_hash` from `parser.py`: 8-character truncation of the
SHA-256 hexdigest of the stripped, UTF-8-encoded content. -/
def generate_hash (content : Str) : Str :=
  (bytesToHex (sha256Bytes (utf8Encode (pyStrip content)))).take 8

/-! ## Record parser (`parser.py`) -/

/-- Clipping type after parsing (the third alternative, `Bookmark`, is
matched by the metadata pattern and then discarded). -/
inductive CT where
  | highlight
  | note
  | bookmark
deriving DecidableEq, Repr

/-- One parsed clipping (the dict built in `parse_clippings`). -/
structure Clip where
  ctype : CT
  content : Str
  hash : Str
  page : Option Nat
  locStart : Option Nat
  locEnd : Option Nat
  date : Option Nat
deriving DecidableEq, Repr

/-- A book entry of the result dict. -/
structure Book where
  title : Str
  author : Str
  clippings : List Clip
deriving DecidableEq, Repr

/-- The clipping boundary marker, ten equals signs. -/
def BOUNDARY : Str := "==========".data

/-- Python `content.split(sep)` scanning for non-overlapping occurrences
of a fixed non-empty separator, fuel-driven (the fuel at the call site
always exceeds the string length, so it never runs out). -/
def splitBoundaryAux : Nat → Str → Str → List Str
  | 0, acc, rest => [acc.reverse ++ rest]
  | fuel + 1, acc, rest =>
    if BOUNDARY.isPrefixOf rest then
      acc.reverse :: splitBoundaryAux fuel [] (rest.drop BOUNDARY.length)
    else
      match rest with
      | [] => [acc.reverse]
      | c :: r => splitBoundaryAux fuel (c :: acc) r

def splitBoundary (l : Str) : List Str := splitBoundaryAux (l.length + 1) [] l

/-- Python `s.split(c)` for a single-character separator. -/
def splitChar (sep : Char) : Str → List Str
  | [] => [[]]
  | c :: r =>
    if c = sep then [] :: splitChar sep r
    else
      match splitChar sep r with
      | s :: ss => (c :: s) :: ss
      | [] => [[c]]

/-- Locate the first line whose strip is non-empty; return the stripped
line together with the remaining lines after it (the loops at
parser.py lines 64 to 83 scan indices; only the stripped line and the
lines after it are used downstream). -/
def firstNonBlank : List Str → Option (Str × List Str)
  | [] => none
  | l :: ls => if pyStrip l = [] then firstNonBlank ls else some (pyStrip l, ls)

/-- ASCII decimal digit (`\d` of the patterns; the inputs the tool meets
are ASCII, Python would additionally accept Unicode digits). -/
def isDig (c : Char) : Bool := '0' ≤ c && c ≤ '9'

/-- Python `int` on a non-empty decimal digit string. -/
def natOfDigits (ds : Str) : Nat := ds.foldl (fun a c => a * 10 + (c.toNat - 48)) 0

/-- Consume an exact literal prefix. -/
def litConsume (lit s : Str) : Option Str :=
  if lit.isPrefixOf s then some (s.drop lit.length) else none

/-- Consume a maximal non-empty digit run (`\d+`; maximal munch is
equivalent to the backtracking engine here because every continuation
after the digit groups rejects a digit as its first character). -/
def digitsConsume (s : Str) : Option (Nat × Str) :=
  let ds := s.takeWhile isDig
  if ds = [] then none else some (natOfDigits ds, s.dropWhile isDig)

/--
`REGEX_TITLE_AUTHOR`, the pattern
`^(.+)\s*\(([^)]+)\)\s*$` with Python backtracking semantics.
After discarding trailing whitespace the line must end with a closing
parenthesis; scanning right to left (`acc` collects the group-2 interior
in original order), the greedy `(.+)` selects the rightmost opening
parenthesis with a non-empty interior free of closing parentheses and a
non-empty remainder to its left.  Returns (reversed group 1, group 2).
-/
def findAuthorRev (acc : Str) : Str → Option (Str × Str)
  | [] => none
  | c :: rest =>
    if c = ')' then none
    else if c = '(' then
      if acc ≠ [] && rest ≠ [] then some (rest, acc)
      else if acc = [] then findAuthorRev ['('] rest
      else none
    else findAuthorRev (c :: acc) rest

/-- Match of the title line against `REGEX_TITLE_AUTHOR`; on success the
code strips both groups. -/
def matchTitleAuthor (line : Str) : Option (Str × Str) :=
  match line.reverse.dropWhile isPySpace with
  | ')' :: rr =>
    match findAuthorRev [] rr with
    | some (g1rev, interior) => some (pyStrip g1rev.reverse, pyStrip interior)
    | none => none
  | _ => none

/-- Tail of `REGEX_INFO`: `\s*\|\s*Added on (.+)$`; returns the date
text, which must be non-empty and runs to the end of the line. -/
def addedTail (s : Str) : Option Str :=
  match s.dropWhile isPySpace with
  | '|' :: r =>
    match litConsume "Added on ".data (r.dropWhile isPySpace) with
    | some r2 => if r2 = [] then none else some r2
    | none => none
  | _ => none

/-- The optional group `(?:Location (\d+(?:-\d+)?))?` followed by
`addedTail`.  Group 3 is re-parsed by the code with
`REGEX_LOCATION_RANGE` / `REGEX_LOCATION_SINGLE` into the pair
`(loc_start, loc_end)` (a single location `N` gives `(N, N)`); since the
group text is by construction either `N` or `N-M`, that re-parse is
fused here into returning the pair directly. -/
def locGroup (s : Str) : Option (Option (Nat × Nat) × Str) :=
  (do
    let r ← litConsume "Location ".data s
    let (n, r2) ← digitsConsume r
    (match r2 with
     | '-' :: r3 => do
        let (m, r4) ← digitsConsume r3
        let d ← addedTail r4
        pure (some (n, m), d)
     | _ => none)
    <|>
    (do
      let d ← addedTail r2
      pure (some (n, n), d)))
  <|>
  (do
    let d ← addedTail s
    pure (none, d))

/-- `\s*\|?\s*` followed by `locGroup`: the optional pipe is first
consumed (greedy), and on failure the engine backtracks to leaving it
in place, where the mandatory `\|` of `addedTail` can take it. -/
def pipeLocTail (s : Str) : Option (Option (Nat × Nat) × Str) :=
  match s.dropWhile isPySpace with
  | '|' :: r => locGroup (r.dropWhile isPySpace) <|> locGroup ('|' :: r)
  | s1 => locGroup s1

/-- The optional group `(?:on page (\d+))?` (greedy, with fallback to
the empty match) followed by `pipeLocTail`. -/
def infoSeqAt (s : Str) : Option (Option Nat × Option (Nat × Nat) × Str) :=
  (do
    let r ← litConsume "on page ".data s
    let (p, r2) ← digitsConsume r
    let (loc, d) ← pipeLocTail r2
    pure (some p, loc, d))
  <|>
  (do
    let (loc, d) ← pipeLocTail s
    pure (none, loc, d))

/-- `REGEX_INFO`, the pattern
`^- Your (Highlight|Note|Bookmark).*?(?:on page (\d+))?\s*\|?\s*(?:Location (\d+(?:-\d+)?))?\s*\|\s*Added on (.+)$`.
The lazy `.*?` is realised by trying every suffix, shortest consumption
first (`tails` lists the longest suffix first).  Returns
(type, page, location pair, date text). -/
def matchInfo (line : Str) : Option (CT × Option Nat × Option (Nat × Nat) × Str) := do
  let r ← litConsume "- Your ".data line
  let (t, r2) ←
    ((litConsume "Highlight".data r).map (fun x => (CT.highlight, x))) <|>
    ((litConsume "Note".data r).map (fun x => (CT.note, x))) <|>
    ((litConsume "Bookmark".data r).map (fun x => (CT.bookmark, x)))
  let (p, loc, d) ← r2.tails.findSome? infoSeqAt
  pure (t, p, loc, d)

/-- Substring containment (Python `in` on strings). -/
def containsSub (sub l : Str) : Bool := l.tails.any (fun t => sub.isPrefixOf t)

/-- The DRM limit message skipped by the parser. -/
def drmMsg : Str := "You have reached the clipping limit for this item".data

/-- Join a list of lines with newline separators (Python
`"\n".join(lines)`). -/
def joinNL : List Str → Str
  | [] => []
  | [l] => l
  | l :: ls => l ++ '\n' :: joinNL ls

section Core

-- Stand-in for `dateutil.parser.parse`: any function from date text to
-- an optional timestamp (failure of the real parser is the `none` case).
variable (parseDate : Str → Option Nat)

/-- Parse one raw segment between boundary markers;
`none` means the segment is skipped (parser.py lines 57 to 148). -/
def parseSegment (raw0 : Str) : Option (Str × Str × Clip) := do
  let raw := pyStrip raw0
  if raw = [] then none else
  let lines := splitChar '\n' raw
  let (titleLine, rest1) ← firstNonBlank lines
  let (infoLine, rest2) ← firstNonBlank rest1
  let (title, author) :=
    match matchTitleAuthor titleLine with
    | some (t, a) => (t, a)
    | none => (pyStrip titleLine, "Unknown".data)
  let (ctype, page, loc, dateStr) ← matchInfo infoLine
  if ctype = CT.bookmark then none else
  let contentLines := ((rest2.dropWhile (fun l => pyStrip l = [])).reverse.dropWhile
      (fun l => pyStrip l = [])).reverse
  let contentText := joinNL contentLines
  if contentText = [] then none else
  if containsSub drmMsg contentText then none else
  pure (title, author,
    { ctype := ctype, content := contentText, hash := generate_hash contentText,
      page := page, locStart := loc.map (fun x => x.1), locEnd := loc.map (fun x => x.2),
      date := parseDate dateStr })

/-- Append a clipping to the book keyed by exact title (defaultdict with
insertion order; the author field is overwritten, last write wins). -/
def insertClip (acc : List (Str × Book)) (t a : Str) (clip : Clip) : List (Str × Book) :=
  match acc with
  | [] => [(t, { title := t, author := a, clippings := [clip] })]
  | (k, b) :: rest =>
    if k = t then (k, { b with author := a, clippings := b.clippings ++ [clip] }) :: rest
    else (k, b) :: insertClip rest t a clip

/-- `parse_clippings` on already-read file content: remove every BOM
character, split on the boundary, and fold the parsed segments into the
title-keyed book mapping (an insertion-ordered association list, the
Python dict). -/
def parse_clippings (content0 : Str) : List (Str × Book) :=
  let content := content0.filter (fun c => c ≠ Char.ofNat 65279)
  (splitBoundary content).foldl
    (fun acc raw =>
      match parseSegment parseDate raw with
      | none => acc
      | some (t, a, clip) => insertClip acc t a clip)
    []

end Core

/-! ## Reconciler -/

/-- Location grouping key of `deduplicate_partial_notes`. -/
def locKey (n : Clip) : Option Nat × Option Nat := (n.locStart, n.locEnd)

/-- Group keys in first-occurrence order (Python defaultdict insertion
order). -/
def firstKeys (notes : List Clip) : List (Option Nat × Option Nat) :=
  notes.foldl (fun acc n => if locKey n ∈ acc then acc else acc ++ [locKey n]) []

/-- The accumulator step of the greedy keep loop. -/
def greedyStep (kept : List Clip) (n : Clip) : List Clip :=
  if kept.any (fun m => n.content.isPrefixOf m.content) then kept else kept ++ [n]

/-- The greedy keep loop: a candidate survives unless its body is a
prefix of an already-kept (longer) body. -/
def greedyKeep (l : List Clip) : List Clip := l.foldl greedyStep []

/-- Stable insertion preserving the original relative order of
equivalent elements. -/
def stableInsert {α : Type} (le : α → α → Bool) (x : α) : List α → List α
  | [] => [x]
  | y :: ys => if le x y then x :: y :: ys else y :: stableInsert le x ys

/-- Python sorting (`list.sort` / `sorted`): a stable ascending sort.
A structurally recursive insertion sort is used; for the total preorders
it is applied to in this file a stable ascending sort is unique, so this
agrees with the Timsort of the runtime. -/
def pySort {α : Type} (le : α → α → Bool) (l : List α) : List α :=
  l.foldr (stableInsert le) []

/-- The length-descending comparison of the dedup sort
(`key=len, reverse=True`; ties keep original order). -/
def lenDescLe (a b : Clip) : Bool := decide (b.content.length ≤ a.content.length)

/-- The filtered location group of one key. -/
def groupFilter (notes : List Clip) (k : Option Nat × Option Nat) : List Clip :=
  notes.filter (fun n => decide (locKey n = k))

/-- The contribution of one location group: singleton groups pass
through, larger groups are sorted longest-first and filtered greedily. -/
def groupOut (notes : List Clip) (k : Option Nat × Option Nat) : List Clip :=
  if (groupFilter notes k).length = 1 then groupFilter notes k
  else greedyKeep (pySort lenDescLe (groupFilter notes k))

/-- `deduplicate_partial_notes` from `parser.py`. -/
def deduplicate_partial_notes (notes : List Clip) : List Clip :=
  if notes = [] then notes else (firstKeys notes).flatMap (groupOut notes)

/-- Sort key `(loc_start or 0, date or datetime.min)`; the minimum date
is modelled as 0. -/
def clipKey (c : Clip) : Nat × Nat := (c.locStart.getD 0, c.date.getD 0)

/-- Lexicographic order on sort keys, as a Bool for `mergeSort`. -/
def clipLe (a b : Clip) : Bool :=
  (clipKey a).1 < (clipKey b).1 ||
  ((clipKey a).1 = (clipKey b).1 && (clipKey a).2 ≤ (clipKey b).2)

/-- The bound `highlight["loc_end"] or highlight["loc_start"]`: Python
`or` falls through both on `None` and on the falsy integer 0. -/
def pyLocEnd (h : Clip) (ls : Nat) : Nat :=
  match h.locEnd with
  | some e => if e = 0 then ls else e
  | none => ls

/-- Notes attached to one highlight: every deduplicated note whose
`loc_start` lies in the inclusive range (a highlight without
`loc_start`, and a note without `loc_start`, attach nothing). -/
def notesFor (notes : List Clip) (h : Clip) : List Clip :=
  match h.locStart with
  | none => []
  | some ls =>
    notes.filter (fun n =>
      match n.locStart with
      | none => false
      | some ns => decide (ls ≤ ns) && decide (ns ≤ pyLocEnd h ls))

/-- A top-level output item: a clipping together with its nested notes
(only highlights receive notes; a standalone note carries `[]`). -/
structure Item where
  clip : Clip
  notes : List Clip
deriving DecidableEq, Repr

def itemLe (a b : Item) : Bool := clipLe a.clip b.clip

/-- `link_notes_to_highlights` from `parser.py`. -/
def link_notes_to_highlights (clippings : List Clip) : List Item :=
  let highlights := clippings.filter (fun c => decide (c.ctype = CT.highlight))
  let notes := deduplicate_partial_notes (clippings.filter (fun c => decide (c.ctype = CT.note)))
  let sortedHls := pySort clipLe highlights
  let items := sortedHls.map (fun h => ({ clip := h, notes := notesFor notes h } : Item))
  let linkedHashes := items.flatMap (fun i => i.notes.map (fun n => n.hash))
  let unlinked := notes.filter (fun n => decide (¬ n.hash ∈ linkedHashes))
  pySort itemLe (items ++ unlinked.map (fun n => ({ clip := n, notes := [] } : Item)))

/-! ## Filesystem model and existing-state scanner -/

/-- First-match association lookup (files and dict entries). -/
def findVal {β : Type} : List (Str × β) → Str → Option β
  | [], _ => none
  | (k, v) :: r, q => if k = q then some v else findVal r q

/-- The filesystem: existing directories and a path-to-content map.
Paths are plain strings joined with a slash; the path aliasing of a real
filesystem (`.`/`..`/double slashes) is outside the model. -/
structure FS where
  dirs : List Str
  files : List (Str × Str)
deriving DecidableEq, Repr

def FS.read (fs : FS) (p : Str) : Option Str := findVal fs.files p

def FS.isFile (fs : FS) (p : Str) : Bool := (fs.read p).isSome

/-- `os.makedirs(..., exist_ok=True)`. -/
def FS.mkdirs (fs : FS) (d : Str) : FS :=
  if d ∈ fs.dirs then fs else { fs with dirs := fs.dirs ++ [d] }

/-- Open with mode `w` on a path that does not exist. -/
def FS.createFile (fs : FS) (p c : Str) : FS := { fs with files := fs.files ++ [(p, c)] }

/-- Open with mode `a` and write. -/
def FS.appendFile (fs : FS) (p c : Str) : FS :=
  { fs with files := fs.files.map (fun e => if e.1 = p then (e.1, e.2 ++ c) else e) }

/-- Open with mode `w` unconditionally (truncates an existing file). -/
def FS.truncWrite (fs : FS) (p c : Str) : FS :=
  if fs.isFile p then
    { fs with files := fs.files.map (fun e => if e.1 = p then (e.1, c) else e) }
  else fs.createFile p c

/-- `os.path.join` restricted to relative names (the only use here). -/
def joinPath (base name : Str) : Str := base ++ '/' :: name

/-- The name of an entry directly inside `base`, if any. -/
def relName (base p : Str) : Option Str :=
  if (base ++ ['/']).isPrefixOf p then
    let rest := p.drop (base.length + 1)
    if rest = [] || rest.contains '/' then none else some rest
  else none

/-- `os.listdir`: names of files and subdirectories directly inside
`base` (order in the real system is unspecified; the index key set the
scanner builds from it is order-independent). -/
def listNames (fs : FS) (base : Str) : List Str :=
  (fs.files.map (fun e => e.1)).filterMap (relName base) ++ fs.dirs.filterMap (relName base)

/-- Lowercase hex character class of `REGEX_KINDLE_HASH`. -/
def isHexC (c : Char) : Bool := ('0' ≤ c && c ≤ '9') || ('a' ≤ c && c ≤ 'f')

def markerPre : Str := "<a href=\"kindle:".data

def markerSuf : Str := "\"></a>".data

/-- The embedded identity marker `<a href="kindle:XXXXXXXX"></a>`. -/
def markerStr (h : Str) : Str := markerPre ++ h ++ markerSuf

/-- Match `REGEX_KINDLE_HASH` at the start of `s`. -/
def matchMarkerAt (s : Str) : Option Str := do
  let r ← litConsume markerPre s
  let h := r.take 8
  if h.length = 8 && h.all isHexC then
    let _ ← litConsume markerSuf (r.drop 8)
    pure h
  else none

/-- All marker hashes in a file (`REGEX_KINDLE_HASH.findall`).  The scan
advances one character at a time; this equals findall advancing past
each match because no marker can begin strictly inside another (the only
interior `<` of the pattern starts `</a>`, which cannot begin a match). -/
def extractHashes : Str → List Str
  | [] => []
  | c :: rest =>
    match matchMarkerAt (c :: rest) with
    | some h => h :: extractHashes rest
    | none => extractHashes rest

/-- The existing-identity index: identity to containing filename. -/
abbrev Idx := List (Str × Str)

/-- Python dict assignment `d[k] = v` on an insertion-ordered dict. -/
def dictInsert (idx : Idx) (k v : Str) : Idx :=
  if (findVal idx k).isSome then idx.map (fun e => if e.1 = k then (e.1, v) else e)
  else idx ++ [(k, v)]

def idxHas (idx : Idx) (h : Str) : Bool := (findVal idx h).isSome

/-! ## Incremental writer -/

/-- Configuration record with every recognised option already resolved
against its documented default (missing keys fall back to defaults in
`config.get`). -/
structure Config where
  minHighlights : Nat
  shortNotesFilename : Str
  defaultTag : Str
  shortNotesTag : Str
  importLogFolder : Str
  createImportLog : Bool
  includeAuthor : Bool
  includeTags : Bool
deriving DecidableEq, Repr

/-- The three `datetime.now()` renderings used by `write_import_log`
(filename timestamp, frontmatter timestamp, heading), taken as input. -/
structure Now where
  fileTs : Str
  fmTs : Str
  headTs : Str
deriving DecidableEq, Repr

/-- One record of `all_new_items`. -/
structure NewGroup where
  bookTitle : Str
  bookAuthor : Str
  clippings : List Item
deriving DecidableEq, Repr

/-- The run summary returned by `sync_highlights`. -/
structure Summary where
  totalBooks : Nat
  newHighlights : Nat
  regularBooks : Nat
  shortBooks : Nat
  importLog : Str
deriving DecidableEq, Repr

/-- Decimal rendering of a count inside a log line. -/
def natStr (n : Nat) : Str := Nat.toDigits 10 n

/-- The filtering pass of both writers: drop every nested note whose
identity is already indexed, and drop every top-level clipping whose
identity is already indexed (the source mutates `c["notes"]` on all
clippings and collects the surviving top-level references, which is the
same result). -/
def filterNewItems (existing : Idx) (clippings : List Item) : List Item :=
  (clippings.map (fun i => ({ i with
      notes := i.notes.filter (fun n => ¬ idxHas existing n.hash) } : Item))).filter
    (fun i => ¬ idxHas existing i.clip.hash)

/-- Rendered block of one surviving clipping (writer.py lines 96 to 107
and 206 to 217): separator, marker, body, markers and quoted bodies of
nested notes, blank line. -/
def clipBlock (i : Item) : List Str :=
  ["---".data, markerStr i.clip.hash, i.clip.content] ++
  i.notes.flatMap (fun n => [markerStr n.hash, "> ".data ++ n.content]) ++ [[]]

/-- Frontmatter of a fresh book file. -/
def bookFrontmatter (cfg : Config) (author : Str) : List Str :=
  ["---".data] ++
  (if cfg.includeAuthor then ["author: \"".data ++ author ++ "\"".data] else []) ++
  (if cfg.includeTags then ["tags:".data, "  - ".data ++ cfg.defaultTag] else []) ++
  ["---".data, []]

/-- Frontmatter of a fresh aggregate file. -/
def shortFrontmatter (cfg : Config) : List Str :=
  ["---".data] ++
  (if cfg.includeTags then
    ["tags:".data, "  - ".data ++ cfg.defaultTag, "  - ".data ++ cfg.shortNotesTag] else []) ++
  ["---".data, []]

section Core2

-- nfkd stands for `unicodedata.normalize("NFKD", _)`; failW injects
-- failure into directory creation and write-opens (the Python calls
-- raise OSError); failR injects failure into reads of existing files.
variable (nfkd : Str → Str) (failW failR : Str → Bool)

/-- `scan_existing_hashes` from `parser.py`: empty index when the
directory does not exist, otherwise fold the marker hashes of every
readable `.md` file directly inside it into the dict (a file whose read
raises is warned about on stdout and skipped; listing a subdirectory
name ending in `.md` behaves the same because opening it raises). -/
def scanStep (fs : FS) (outputDir : Str) (idx : Idx) (name : Str) : Idx :=
  if (".md".data).isSuffixOf name then
    match (if failR (joinPath outputDir name) then none
           else fs.read (joinPath outputDir name)) with
    | some content => (extractHashes content).foldl (fun i h => dictInsert i h name) idx
    | none => idx
  else idx

def scan_existing_hashes (fs : FS) (outputDir : Str) : Idx :=
  if outputDir ∈ fs.dirs then
    (listNames fs outputDir).foldl (scanStep failR fs outputDir) []
  else []

/-- Characters removed by the first `re.sub` of `sanitize_filename`. -/
def badFileChar (c : Char) : Bool :=
  c = '<' || c = '>' || c = ':' || c = '"' || c = '/' || c = '\\' ||
  c = '|' || c = '?' || c = '*'

/-- Control characters removed by the second `re.sub`. -/
def ctrlChar (c : Char) : Bool := c.toNat ≤ 31 || (127 ≤ c.toNat && c.toNat ≤ 159)

/-- Python `str.strip(".")`. -/
def stripDots (l : Str) : Str :=
  ((l.dropWhile (fun c => c = '.')).reverse.dropWhile (fun c => c = '.')).reverse

/-- Python `t.rsplit(" ", 1)[0]`: everything before the last space, or
the whole string when it has no space. -/
def rsplitBeforeLastSpace (t : Str) : Str :=
  match t.reverse.dropWhile (fun c => c ≠ ' ') with
  | ' ' :: restRev => restRev.reverse
  | _ => t

/-- `sanitize_filename` from `writer.py` with the default maximum length
128. -/
def sanitize_filename (filename : Str) : Str :=
  let c1 := (nfkd filename).filter (fun c => ¬ badFileChar c)
  let c2 := c1.filter (fun c => ¬ ctrlChar c)
  let c3 := stripDots (pyStrip c2)
  if 128 < c3.length then rsplitBeforeLastSpace (c3.take 128) else c3

/-- `write_book_file` from `writer.py`.  Returns
(new count, total count, surviving items, filesystem, log lines). -/
def write_book_file (book : Book) (outputDir : Str) (existing : Idx) (cfg : Config)
    (dryRun : Bool) (fs : FS) (log : List Str) :
    Except Unit (Nat × Nat × List Item × FS × List Str) :=
  let clippings := link_notes_to_highlights book.clippings
  let newClippings := filterNewItems existing clippings
  if newClippings = [] then .ok (0, clippings.length, [], fs, log)
  else
    let filename := sanitize_filename nfkd book.title ++ ".md".data
    let filepath := joinPath outputDir filename
    let fileExists := fs.isFile filepath
    let lines := (if fileExists then [] else bookFrontmatter cfg book.author) ++
      newClippings.flatMap clipBlock ++ ["---".data]
    if dryRun then .ok (newClippings.length, clippings.length, newClippings, fs, log)
    else
      if failW outputDir then .error () else
      let fs1 := fs.mkdirs outputDir
      if failW filepath then .error () else
      let fs2 := if fileExists then fs1.appendFile filepath ('\n' :: joinNL lines)
                 else fs1.createFile filepath (joinNL lines)
      let log2 := log ++
        ["  ".data ++ book.title ++ ": ".data ++ natStr newClippings.length ++ " new".data]
      .ok (newClippings.length, clippings.length, newClippings, fs2, log2)

/-- Surviving items of one short book. -/
def shortNew (existing : Idx) (book : Book) : List Item :=
  filterNewItems existing (link_notes_to_highlights book.clippings)

/-- Lines contributed to the aggregate file by one short book. -/
def shortSection (existing : Idx) (book : Book) : List Str :=
  if shortNew existing book = [] then []
  else
    ["## ".data ++ book.title, "*".data ++ book.author ++ "*".data, []] ++
    (shortNew existing book).flatMap clipBlock ++ ["---".data, []]

/-- `write_short_notes_file` from `writer.py`.  The single source loop
is expressed as one traversal per accumulator (lines, total new count,
contributing book count, groups); the fusion is observationally equal.
Returns (new count, contributing books, groups, filesystem, log). -/
def write_short_notes_file (shortBooks : List Book) (outputDir : Str) (existing : Idx)
    (cfg : Config) (dryRun : Bool) (fs : FS) (log : List Str) :
    Except Unit (Nat × Nat × List NewGroup × FS × List Str) :=
  let filename := cfg.shortNotesFilename
  let filepath := joinPath outputDir filename
  let fileExists := fs.isFile filepath
  let lines := (if fileExists then [] else shortFrontmatter cfg) ++
    shortBooks.flatMap (shortSection existing)
  let totalNew := (shortBooks.map (fun b => (shortNew existing b).length)).sum
  let contributing := shortBooks.filter (fun b => ¬ shortNew existing b = [])
  let allNewItems := contributing.map (fun b =>
    { bookTitle := b.title, bookAuthor := b.author, clippings := shortNew existing b })
  if lines = [] then .ok (0, 0, [], fs, log)
  else if dryRun then .ok (totalNew, contributing.length, allNewItems, fs, log)
  else
    if failW outputDir then .error () else
    let fs1 := fs.mkdirs outputDir
    if failW filepath then .error () else
    let fs2 := if fileExists then fs1.appendFile filepath ('\n' :: joinNL lines)
               else fs1.createFile filepath (joinNL lines)
    let log2 := log ++
      ["  ".data ++ filename ++ ": ".data ++ natStr totalNew ++ " new from ".data ++
       natStr contributing.length ++ " books".data]
    .ok (totalNew, contributing.length, allNewItems, fs2, log2)

/-- Codepoint-lexicographic strict order on strings (Python `<`). -/
def strLt : Str → Str → Bool
  | [], [] => false
  | [], _ :: _ => true
  | _ :: _, [] => false
  | a :: as, b :: bs => a.toNat < b.toNat || (a = b && strLt as bs)

def importLogDir (outputDir : Str) (cfg : Config) : Str := joinPath outputDir cfg.importLogFolder

def importLogName (now : Now) : Str := "Import ".data ++ now.fileTs ++ ".md".data

/-- The timestamped path the import log is written to. -/
def importLogPath (outputDir : Str) (cfg : Config) (now : Now) : Str :=
  joinPath (importLogDir outputDir cfg) (importLogName now)

/-- Import-log block of one clipping: bodies only, no markers. -/
def importBlock (i : Item) : List Str :=
  ["---".data, i.clip.content] ++ i.notes.map (fun n => "> ".data ++ n.content) ++ [[]]

/-- Import-log section of one book (a group with no clippings is
skipped). -/
def importBookSection (g : NewGroup) : List Str :=
  if g.clippings = [] then []
  else
    ["## ".data ++ g.bookTitle, "*".data ++ g.bookAuthor ++ "*".data, []] ++
    g.clippings.flatMap importBlock ++ ["---".data, []]

/-- `write_import_log` from `writer.py`.  Note the unconditional mode
`w` open, and that the filepath is returned even on a dry run. -/
def write_import_log (newItems : List NewGroup) (outputDir : Str) (cfg : Config)
    (dryRun : Bool) (now : Now) (fs : FS) (log : List Str) :
    Except Unit (Str × FS × List Str) :=
  let totalNew := (newItems.map (fun g => g.clippings.length)).sum
  if totalNew = 0 then .ok ([], fs, log)
  else
    let filepath := importLogPath outputDir cfg now
    let lines :=
      ["---".data, "imported: ".data ++ now.fmTs,
       "total_new: ".data ++ natStr totalNew,
       "books: ".data ++ natStr newItems.length] ++
      (if cfg.includeTags then ["tags:".data, "  - import-log".data] else []) ++
      ["---".data, [], "# Import Log - ".data ++ now.headTs, [],
       "**".data ++ natStr totalNew ++ " new highlights** from **".data ++
         natStr newItems.length ++ " books**".data, []] ++
      (pySort (fun x y => ¬ strLt y.bookTitle x.bookTitle) newItems).flatMap
        importBookSection
    if dryRun then .ok (filepath, fs, log)
    else
      if failW (importLogDir outputDir cfg) then .error () else
      let fs1 := fs.mkdirs (importLogDir outputDir cfg)
      if failW filepath then .error () else
      let fs2 := fs1.truncWrite filepath (joinNL lines)
      let log2 := log ++ ["Import log: ".data ++ importLogName now]
      .ok (filepath, fs2, log2)

/-- Highlight-type clipping count used for routing. -/
def hlCount (b : Book) : Nat :=
  (b.clippings.filter (fun c => decide (c.ctype = CT.highlight))).length

/-- The regular-books loop of `sync_highlights`, with the running total,
group list, filesystem and log threaded through. -/
def processBooks (outputDir : Str) (existing : Idx) (cfg : Config) (dryRun : Bool) :
    List (Str × Book) → Nat → List NewGroup → FS → List Str →
    Except Unit (Nat × List NewGroup × FS × List Str)
  | [], tn, gs, fs, log => .ok (tn, gs, fs, log)
  | (_, b) :: rest, tn, gs, fs, log =>
    match write_book_file nfkd failW b outputDir existing cfg dryRun fs log with
    | .error e => .error e
    | .ok (n, _, newClips, fs1, log1) =>
      processBooks outputDir existing cfg dryRun rest (tn + n)
        (if newClips = [] then gs
         else gs ++ [{ bookTitle := b.title, bookAuthor := b.author, clippings := newClips }])
        fs1 log1

/-- `sync_highlights` from `writer.py`: the core entry operation.
`inputContent` is `none` when the clippings file cannot be opened or
read (the only propagated parse failure).  Returns the summary, the
resulting filesystem and the lines given to the logging callback. -/
def sync_highlights (parseDate : Str → Option Nat) (inputContent : Option Str)
    (outputDir : Str) (cfg : Config) (dryRun : Bool) (now : Now) (fs : FS) :
    Except Unit (Summary × FS × List Str) := do
  let log : List Str := ["Parsing clippings file...".data]
  let books ← match inputContent with
    | none => Except.error ()
    | some c => Except.ok (parse_clippings parseDate c)
  let log := log ++ ["Found ".data ++ natStr books.length ++ " books".data]
  let log := log ++ ["Scanning existing files...".data]
  let existing := scan_existing_hashes failR fs outputDir
  let log := log ++ ["Found ".data ++ natStr existing.length ++ " existing highlights".data]
  let minH := cfg.minHighlights
  let regular := books.filter (fun kb => decide (minH ≤ hlCount kb.2))
  let shorts := (books.filter (fun kb => ¬ decide (minH ≤ hlCount kb.2))).map (fun kb => kb.2)
  let log := log ++
    ["Books with ".data ++ natStr minH ++ "+ highlights: ".data ++ natStr regular.length]
  let log := log ++
    ["Books with <".data ++ natStr minH ++ " highlights: ".data ++ natStr shorts.length]
  let log := log ++ [[]]
  let (totalNew1, allNew1, fs1, log1) ←
    if regular = [] then Except.ok (0, ([] : List NewGroup), fs, log)
    else do
      let logA := log ++ ["Processing book files:".data]
      let (tn, gs, fsA, logB) ← processBooks nfkd failW outputDir existing cfg dryRun
        (pySort (fun x y => ¬ strLt y.1 x.1) regular) 0 [] fs logA
      Except.ok (tn, gs, fsA, logB ++ [[]])
  let (totalNew2, allNew2, fs2, log2) ←
    if shorts = [] then Except.ok (totalNew1, allNew1, fs1, log1)
    else do
      let logA := log1 ++ ["Processing short notes:".data]
      match write_short_notes_file failW shorts outputDir existing cfg dryRun fs1 logA with
      | .error e => Except.error e
      | .ok (sn, _, sgs, fsA, logB) =>
        Except.ok (totalNew1 + sn, allNew1 ++ sgs, fsA, logB ++ [[]])
  let (importPath, fs3, log3) ←
    if allNew2 ≠ [] ∧ cfg.createImportLog = true then do
      let logA := log2 ++ ["Creating import log:".data]
      match write_import_log failW allNew2 outputDir cfg dryRun now fs2 logA with
      | .error e => Except.error e
      | .ok (p, fsA, logB) => Except.ok (p, fsA, logB ++ [[]])
    else Except.ok (([] : Str), fs2, log2)
  let log4 := log3 ++ ["Done! Added ".data ++ natStr totalNew2 ++ " new highlights.".data]
  Except.ok ({ totalBooks := books.length, newHighlights := totalNew2,
               regularBooks := regular.length, shortBooks := shorts.length,
               importLog := importPath }, fs3, log4)

end Core2

/-! ## Properties of the identity hash -/

theorem hexChar_isHex (n : Nat) : isHexC (hexChar n) = true := by
  unfold hexChar
  split <;> decide

theorem bytesToHex_length (bs : List Nat) : (bytesToHex bs).length = 2 * bs.length := by
  induction bs with
  | nil => rfl
  | cons b r ih =>
    simp only [bytesToHex, List.flatMap_cons, List.length_append, List.length_cons] at *
    simp [byteHex, ih]
    omega

theorem sha256Bytes_length (msg : List Nat) : (sha256Bytes msg).length = 32 := by
  unfold sha256Bytes
  simp [wordBytes]

theorem mem_bytesToHex_isHex {c : Char} {bs : List Nat} (h : c ∈ bytesToHex bs) :
    isHexC c = true := by
  induction bs with
  | nil => simp [bytesToHex] at h
  | cons b r ih =>
    simp only [bytesToHex, List.flatMap_cons, List.mem_append] at h
    rcases h with h | h
    · simp only [byteHex, List.mem_cons, List.not_mem_nil, or_false] at h
      rcases h with h | h <;> (subst h; exact hexChar_isHex _)
    · exact ih h

theorem generate_hash_length (s : Str) : (generate_hash s).length = 8 := by
  unfold generate_hash
  rw [List.length_take, bytesToHex_length, sha256Bytes_length]
  rfl

theorem mem_generate_hash_isHex {c : Char} {s : Str} (h : c ∈ generate_hash s) :
    isHexC c = true :=
  mem_bytesToHex_isHex (List.mem_of_mem_take h)

theorem dropWhile_append_of_all {α : Type} {p : α → Bool} {w l : List α}
    (h : ∀ c ∈ w, p c = true) : (w ++ l).dropWhile p = l.dropWhile p := by
  induction w with
  | nil => rfl
  | cons a w ih =>
    simp only [List.cons_append, List.dropWhile_cons, h a (by simp)]
    exact ih (fun c hc => h c (by simp [hc]))

theorem lstrip_append_spaces {w l : Str} (h : ∀ c ∈ w, isPySpace c = true) :
    lstrip (w ++ l) = lstrip l :=
  dropWhile_append_of_all h

theorem rstrip_append_spaces {l w : Str} (h : ∀ c ∈ w, isPySpace c = true) :
    rstrip (l ++ w) = rstrip l := by
  unfold rstrip
  rw [List.reverse_append, dropWhile_append_of_all (fun c hc => h c (List.mem_reverse.mp hc))]

theorem lstrip_eq_nil_of_all {w : Str} (h : ∀ c ∈ w, isPySpace c = true) :
    lstrip w = [] := by
  have h2 : lstrip (w ++ ([] : Str)) = lstrip ([] : Str) := lstrip_append_spaces h
  simpa [lstrip] using h2


theorem pyStrip_append_left {w l : Str} (h : ∀ c ∈ w, isPySpace c = true) :
    pyStrip (w ++ l) = pyStrip l := by
  unfold pyStrip
  rw [lstrip_append_spaces h]

theorem pyStrip_append_right {l w : Str} (h : ∀ c ∈ w, isPySpace c = true) :
    pyStrip (l ++ w) = pyStrip l := by
  unfold pyStrip
  unfold lstrip
  rw [List.dropWhile_append]
  split
  · next he =>
    have h2 : lstrip w = [] := lstrip_eq_nil_of_all h
    simp only [lstrip] at h2
    rw [h2]
    have h3 : List.dropWhile isPySpace l = [] := by
      simpa using he
    rw [h3]
  · exact rstrip_append_spaces h

/--
Claim C7: `generate_hash` is deterministic (it is a function of the body
text), invariant under surrounding whitespace, and always yields exactly
8 characters from the lowercase hexadecimal alphabet.
-/
theorem C7_identity_contract (s pre suf : Str)
    (hpre : ∀ c ∈ pre, isPySpace c = true) (hsuf : ∀ c ∈ suf, isPySpace c = true) :
    generate_hash (pre ++ s ++ suf) = generate_hash s ∧
    (generate_hash s).length = 8 ∧
    (∀ c ∈ generate_hash s, isHexC c = true) := by
  refine ⟨?_, generate_hash_length s, fun c hc => mem_generate_hash_isHex hc⟩
  unfold generate_hash
  rw [List.append_assoc, pyStrip_append_left hpre, pyStrip_append_right hsuf]

/-- Witness for C7 at a concrete body with a leading space and a
trailing newline. -/
theorem C7_identity_contract_witness :
    generate_hash ([' '] ++ ['a', 'b'] ++ ['\n']) = generate_hash ['a', 'b'] ∧
    (generate_hash ['a', 'b']).length = 8 ∧
    (∀ c ∈ generate_hash ['a', 'b'], isHexC c = true) :=
  C7_identity_contract ['a', 'b'] [' '] ['\n'] (by decide) (by decide)

/-! ## Properties of partial-note deduplication -/

theorem greedyStep_of_any {kept : List Clip} {n : Clip}
    (h : kept.any (fun m => n.content.isPrefixOf m.content) = true) :
    greedyStep kept n = kept := by
  unfold greedyStep
  rw [if_pos h]

theorem greedyStep_of_not_any {kept : List Clip} {n : Clip}
    (h : ¬ kept.any (fun m => n.content.isPrefixOf m.content) = true) :
    greedyStep kept n = kept ++ [n] := by
  unfold greedyStep
  rw [if_neg h]

theorem greedy_mono (l : List Clip) :
    ∀ kept x, x ∈ kept → x ∈ l.foldl greedyStep kept := by
  induction l with
  | nil => intro kept x hx; simpa using hx
  | cons a l ih =>
    intro kept x hx
    rw [List.foldl_cons]
    refine ih _ x ?_
    by_cases h : kept.any (fun m => a.content.isPrefixOf m.content) = true
    · rw [greedyStep_of_any h]; exact hx
    · rw [greedyStep_of_not_any h]; exact List.mem_append_left _ hx

theorem greedy_mem (l : List Clip) :
    ∀ kept x, x ∈ l.foldl greedyStep kept → x ∈ kept ∨ x ∈ l := by
  induction l with
  | nil => intro kept x hx; simpa using hx
  | cons a l ih =>
    intro kept x hx
    rw [List.foldl_cons] at hx
    rcases ih _ x hx with h | h
    · by_cases hc : kept.any (fun m => a.content.isPrefixOf m.content) = true
      · rw [greedyStep_of_any hc] at h
        exact Or.inl h
      · rw [greedyStep_of_not_any hc] at h
        rcases List.mem_append.mp h with h | h
        · exact Or.inl h
        · simp only [List.mem_singleton] at h
          exact Or.inr (by simp [h])
    · exact Or.inr (List.mem_cons_of_mem _ h)

theorem greedy_reject (l : List Clip) :
    ∀ kept n, n ∈ l → n ∉ l.foldl greedyStep kept →
    ∃ m, m ∈ l.foldl greedyStep kept ∧ n.content.isPrefixOf m.content = true := by
  induction l with
  | nil => intro kept n hn; simp at hn
  | cons a l ih =>
    intro kept n hn hnot
    rw [List.foldl_cons] at hnot ⊢
    rcases List.mem_cons.mp hn with rfl | hn
    · by_cases hany : kept.any (fun m => n.content.isPrefixOf m.content) = true
      · obtain ⟨m, hm, hpm⟩ := List.any_eq_true.mp hany
        refine ⟨m, greedy_mono l _ m ?_, hpm⟩
        by_cases hc : kept.any (fun m2 => n.content.isPrefixOf m2.content) = true
        · rw [greedyStep_of_any hc]; exact hm
        · rw [greedyStep_of_not_any hc]; exact List.mem_append_left _ hm
      · exfalso
        refine hnot (greedy_mono l _ n ?_)
        rw [greedyStep_of_not_any hany]
        exact List.mem_append_right _ (by simp)
    · exact ih _ n hn hnot

theorem firstKeysAux_mono (notes : List Clip) :
    ∀ acc k, k ∈ acc →
      k ∈ notes.foldl (fun acc n => if locKey n ∈ acc then acc else acc ++ [locKey n]) acc := by
  induction notes with
  | nil => intro acc k hk; simpa using hk
  | cons a notes ih =>
    intro acc k hk
    rw [List.foldl_cons]
    refine ih _ k ?_
    by_cases h : locKey a ∈ acc
    · rw [if_pos h]; exact hk
    · rw [if_neg h]; exact List.mem_append_left _ hk

theorem mem_firstKeysAux (notes : List Clip) :
    ∀ acc (n : Clip), n ∈ notes →
      locKey n ∈ notes.foldl (fun acc m => if locKey m ∈ acc then acc else acc ++ [locKey m]) acc := by
  induction notes with
  | nil => intro acc n hn; cases hn
  | cons a notes ih =>
    intro acc n hn
    rw [List.foldl_cons]
    rcases List.mem_cons.mp hn with rfl | hn
    · refine firstKeysAux_mono notes _ _ ?_
      by_cases h : locKey n ∈ acc
      · rw [if_pos h]; exact h
      · rw [if_neg h]; exact List.mem_append_right _ (by simp)
    · exact ih _ n hn

theorem mem_firstKeys {n : Clip} {notes : List Clip} (hn : n ∈ notes) :
    locKey n ∈ firstKeys notes :=
  mem_firstKeysAux notes [] n hn

theorem mem_stableInsert {α : Type} {le : α → α → Bool} {x a : α} :
    ∀ {l : List α}, a ∈ stableInsert le x l ↔ a = x ∨ a ∈ l := by
  intro l
  induction l with
  | nil => simp [stableInsert]
  | cons y ys ih =>
    unfold stableInsert
    by_cases h : le x y = true
    · rw [if_pos h]
      simp
    · rw [if_neg h]
      simp only [List.mem_cons, ih]
      tauto

theorem mem_pySort {α : Type} {le : α → α → Bool} {a : α} {l : List α} :
    a ∈ pySort le l ↔ a ∈ l := by
  induction l with
  | nil => simp [pySort]
  | cons y ys ih =>
    unfold pySort at ih ⊢
    rw [List.foldr_cons, mem_stableInsert, List.mem_cons, ih]

theorem mem_groupOut_mem {notes : List Clip} {k : Option Nat × Option Nat} {m : Clip}
    (hm : m ∈ groupOut notes k) : m ∈ notes ∧ locKey m = k := by
  unfold groupOut at hm
  split at hm
  · have := List.mem_filter.mp hm
    exact ⟨this.1, of_decide_eq_true this.2⟩
  · rcases greedy_mem _ _ _ hm with h | h
    · cases h
    · have := List.mem_filter.mp (mem_pySort.mp h)
      exact ⟨this.1, of_decide_eq_true this.2⟩

theorem dedup_subset {notes : List Clip} {m : Clip}
    (hm : m ∈ deduplicate_partial_notes notes) : m ∈ notes := by
  unfold deduplicate_partial_notes at hm
  split at hm
  · simpa using hm
  · obtain ⟨k, _, hmk⟩ := List.mem_flatMap.mp hm
    exact (mem_groupOut_mem hmk).1

/--
Claim C8: partial-note deduplication keeps, within each
(loc_start, loc_end) group, only candidates whose body is not a prefix
of an already-kept longer candidate: the output is a subset of the
input, every dropped note has its body as an exact leading-substring
prefix of the body of a surviving note of the same group that is at
least as long, and on notes "Hi", "Hi there", "Hi there!" at the same
location exactly "Hi there!" survives.
-/
theorem C8_partial_note_dedup :
    (∀ notes : List Clip,
      (∀ m ∈ deduplicate_partial_notes notes, m ∈ notes) ∧
      (∀ n ∈ notes, n ∉ deduplicate_partial_notes notes →
        ∃ m, m ∈ deduplicate_partial_notes notes ∧ locKey m = locKey n ∧
          n.content.isPrefixOf m.content = true ∧ n.content.length ≤ m.content.length)) ∧
    deduplicate_partial_notes
      [⟨CT.note, "Hi".data, [], none, some 5, some 5, none⟩,
       ⟨CT.note, "Hi there".data, [], none, some 5, some 5, none⟩,
       ⟨CT.note, "Hi there!".data, [], none, some 5, some 5, none⟩] =
      [⟨CT.note, "Hi there!".data, [], none, some 5, some 5, none⟩] := by
  constructor
  · intro notes
    refine ⟨fun m hm => dedup_subset hm, ?_⟩
    intro n hn hnot
    have hne : notes ≠ [] := by rintro rfl; cases hn
    unfold deduplicate_partial_notes at hnot ⊢
    rw [if_neg hne] at hnot ⊢
    have hk : locKey n ∈ firstKeys notes := mem_firstKeys hn
    have hng : n ∉ groupOut notes (locKey n) := by
      intro hmem
      exact hnot (List.mem_flatMap.mpr ⟨locKey n, hk, hmem⟩)
    have hnfil : n ∈ groupFilter notes (locKey n) :=
      List.mem_filter.mpr ⟨hn, by simp⟩
    unfold groupOut at hng
    by_cases hlen : (groupFilter notes (locKey n)).length = 1
    · rw [if_pos hlen] at hng
      exact absurd hnfil hng
    · rw [if_neg hlen] at hng
      have hnsort : n ∈ pySort lenDescLe (groupFilter notes (locKey n)) :=
        mem_pySort.mpr hnfil
      obtain ⟨m, hm, hpm⟩ := greedy_reject _ _ n hnsort hng
      have hmg : m ∈ groupOut notes (locKey n) := by
        unfold groupOut
        rw [if_neg hlen]
        exact hm
      have hmk := mem_groupOut_mem hmg
      refine ⟨m, List.mem_flatMap.mpr ⟨locKey n, hk, hmg⟩, hmk.2, hpm, ?_⟩
      exact (List.isPrefixOf_iff_prefix.mp hpm).length_le
  · decide

/-- Witness for C8: the note "Hi" is dropped in favour of a longer note
at the same location. -/
theorem C8_partial_note_dedup_witness :
    ∃ m, m ∈ deduplicate_partial_notes
        [⟨CT.note, "Hi".data, [], none, some 5, some 5, none⟩,
         ⟨CT.note, "Hi there".data, [], none, some 5, some 5, none⟩] ∧
      locKey m = locKey ⟨CT.note, "Hi".data, [], none, some 5, some 5, none⟩ ∧
      ("Hi".data).isPrefixOf m.content = true ∧
      ("Hi".data).length ≤ m.content.length :=
  (C8_partial_note_dedup.1
    [⟨CT.note, "Hi".data, [], none, some 5, some 5, none⟩,
     ⟨CT.note, "Hi there".data, [], none, some 5, some 5, none⟩]).2
    ⟨CT.note, "Hi".data, [], none, some 5, some 5, none⟩ (by decide) (by decide)

/-! ## Properties of note-to-highlight linking -/

theorem notesFor_mem (notes : List Clip) (h : Clip) (n : Clip) :
    n ∈ notesFor notes h ↔
      n ∈ notes ∧ ∃ ls ns, h.locStart = some ls ∧ n.locStart = some ns ∧
        ls ≤ ns ∧ ns ≤ pyLocEnd h ls := by
  unfold notesFor
  cases hls : h.locStart with
  | none => simp [hls]
  | some ls =>
    rw [List.mem_filter]
    constructor
    · rintro ⟨hn, hpred⟩
      cases hns : n.locStart with
      | none => rw [hns] at hpred; simp at hpred
      | some ns =>
        rw [hns] at hpred
        simp only [Bool.and_eq_true, decide_eq_true_eq] at hpred
        exact ⟨hn, ls, ns, rfl, rfl, hpred.1, hpred.2⟩
    · rintro ⟨hn, ls2, ns, hls2, hns, h1, h2⟩
      injection hls2 with h3
      subst h3
      refine ⟨hn, ?_⟩
      rw [hns]
      simp only [Bool.and_eq_true, decide_eq_true_eq]
      exact ⟨h1, h2⟩

theorem notesFor_none {notes : List Clip} {h : Clip} (hls : h.locStart = none) :
    notesFor notes h = [] := by
  unfold notesFor
  rw [hls]

/--
Claim C9: a note is attached to a highlight exactly when the note has a
loc_start lying within the inclusive range from the highlight loc_start
to (loc_end or loc_start); a highlight without loc_start is attached no
notes; every highlight item produced by the linker carries exactly the
notes so characterised; and concretely a highlight spanning 100 to 150
claims a note at 150 but not one at 151.
-/
theorem C9_linking_boundary :
    (∀ (notes : List Clip) (h : Clip) (n : Clip),
      (n ∈ notesFor notes h ↔
        n ∈ notes ∧ ∃ ls ns, h.locStart = some ls ∧ n.locStart = some ns ∧
          ls ≤ ns ∧ ns ≤ pyLocEnd h ls) ∧
      (h.locStart = none → notesFor notes h = [])) ∧
    (∀ (clippings : List Clip) (i : Item), i ∈ link_notes_to_highlights clippings →
      i.clip.ctype = CT.highlight →
      i.notes = notesFor
        (deduplicate_partial_notes (clippings.filter (fun c => decide (c.ctype = CT.note))))
        i.clip) ∧
    notesFor
      [⟨CT.note, "a".data, [], none, some 150, some 150, none⟩,
       ⟨CT.note, "b".data, [], none, some 151, some 151, none⟩]
      ⟨CT.highlight, "H".data, [], none, some 100, some 150, none⟩ =
      [⟨CT.note, "a".data, [], none, some 150, some 150, none⟩] := by
  refine ⟨fun notes h n => ⟨notesFor_mem notes h n, fun hls => notesFor_none hls⟩, ?_, by decide⟩
  intro clippings i hi hh
  unfold link_notes_to_highlights at hi
  rw [mem_pySort] at hi
  rcases List.mem_append.mp hi with h | h
  · obtain ⟨hl, _, rfl⟩ := List.mem_map.mp h
    rfl
  · obtain ⟨n, hn, rfl⟩ := List.mem_map.mp h
    exfalso
    have := List.mem_filter.mp (dedup_subset (List.mem_filter.mp hn).1)
    have hnote : n.ctype = CT.note := of_decide_eq_true this.2
    simp only [hnote] at hh
    cases hh

/-- Witness for C9 at a highlight without loc_start. -/
theorem C9_linking_boundary_witness :
    notesFor [] ⟨CT.highlight, "H".data, [], none, none, none, none⟩ = [] :=
  ((C9_linking_boundary.1 [] ⟨CT.highlight, "H".data, [], none, none, none, none⟩
    ⟨CT.note, "x".data, [], none, none, none, none⟩).2) rfl

/-! ## The no-re-emission invariant of the writers -/

theorem filterNewItems_fresh {existing : Idx} {items : List Item} {i : Item}
    (hi : i ∈ filterNewItems existing items) :
    idxHas existing i.clip.hash = false ∧ ∀ m ∈ i.notes, idxHas existing m.hash = false := by
  unfold filterNewItems at hi
  have h2 := List.mem_filter.mp hi
  obtain ⟨j, _, rfl⟩ := List.mem_map.mp h2.1
  have htop := h2.2
  simp only [decide_eq_true_eq, Bool.not_eq_true] at htop
  refine ⟨by simpa using htop, ?_⟩
  intro m hm
  simp only [List.mem_filter, decide_eq_true_eq, Bool.not_eq_true] at hm
  simpa using hm.2

theorem write_book_file_items {nfkd : Str → Str} {failW : Str → Bool} {book : Book}
    {outputDir : Str} {existing : Idx} {cfg : Config} {dryRun : Bool} {fs : FS}
    {log : List Str} {n t : Nat} {items : List Item} {fs2 : FS} {log2 : List Str}
    (h : write_book_file nfkd failW book outputDir existing cfg dryRun fs log =
      .ok (n, t, items, fs2, log2)) :
    items = [] ∨ items = filterNewItems existing (link_notes_to_highlights book.clippings) := by
  simp only [write_book_file] at h
  repeat' split at h
  any_goals exact (Except.noConfusion h)
  all_goals simp only [Except.ok.injEq, Prod.mk.injEq] at h
  all_goals first
    | exact Or.inl h.2.2.1.symm
    | exact Or.inr h.2.2.1.symm

theorem write_short_notes_file_groups {failW : Str → Bool} {shortBooks : List Book}
    {outputDir : Str} {existing : Idx} {cfg : Config} {dryRun : Bool} {fs : FS}
    {log : List Str} {n b : Nat} {gs : List NewGroup} {fs2 : FS} {log2 : List Str}
    (h : write_short_notes_file failW shortBooks outputDir existing cfg dryRun fs log =
      .ok (n, b, gs, fs2, log2)) :
    gs = [] ∨ ∀ g ∈ gs, ∃ bk ∈ shortBooks, g.clippings = shortNew existing bk := by
  simp only [write_short_notes_file] at h
  repeat' split at h
  any_goals exact (Except.noConfusion h)
  all_goals simp only [Except.ok.injEq, Prod.mk.injEq] at h
  all_goals first
    | exact Or.inl h.2.2.1.symm
    | (refine Or.inr ?_
       rw [← h.2.2.1]
       intro g hg
       obtain ⟨bk, hbk, rfl⟩ := List.mem_map.mp hg
       exact ⟨bk, (List.mem_filter.mp hbk).1, rfl⟩)

/--
Claim C2: an identity present in the existing-identity index is never
re-emitted: every marker block either writer emits (top-level clipping
or nested note, own-file path or aggregate path) carries an identity
absent from the index.
-/
theorem C2_no_reemission (nfkd : Str → Str) (failW : Str → Bool) (book : Book)
    (shortBooks : List Book) (outputDir : Str) (existing : Idx) (cfg : Config)
    (dryRun : Bool) (fs : FS) (log : List Str) :
    (∀ n t items fs2 log2,
      write_book_file nfkd failW book outputDir existing cfg dryRun fs log =
        .ok (n, t, items, fs2, log2) →
      ∀ i ∈ items, idxHas existing i.clip.hash = false ∧
        ∀ m ∈ i.notes, idxHas existing m.hash = false) ∧
    (∀ n b gs fs2 log2,
      write_short_notes_file failW shortBooks outputDir existing cfg dryRun fs log =
        .ok (n, b, gs, fs2, log2) →
      ∀ g ∈ gs, ∀ i ∈ g.clippings, idxHas existing i.clip.hash = false ∧
        ∀ m ∈ i.notes, idxHas existing m.hash = false) := by
  constructor
  · intro n t items fs2 log2 h i hi
    rcases write_book_file_items h with rfl | rfl
    · cases hi
    · exact filterNewItems_fresh hi
  · intro n b gs fs2 log2 h g hg i hi
    rcases write_short_notes_file_groups h with rfl | hgs
    · cases hg
    · obtain ⟨bk, _, hc⟩ := hgs g hg
      rw [hc] at hi
      exact filterNewItems_fresh hi

/-- Witness for C2 on a one-highlight book against an empty index. -/
theorem C2_no_reemission_witness :
    ∀ i ∈ filterNewItems []
        (link_notes_to_highlights [⟨CT.highlight, "B".data, "ab".data, none, some 1, some 1, none⟩]),
      idxHas [] i.clip.hash = false ∧ ∀ m ∈ i.notes, idxHas [] m.hash = false :=
  (C2_no_reemission id (fun _ => false)
      ⟨"T".data, "A".data, [⟨CT.highlight, "B".data, "ab".data, none, some 1, some 1, none⟩]⟩
      [] "out".data [] ⟨3, "s.md".data, "t".data, "u".data, "f".data, true, true, true⟩
      true ⟨[], []⟩ []).1
    1 1 (filterNewItems []
      (link_notes_to_highlights [⟨CT.highlight, "B".data, "ab".data, none, some 1, some 1, none⟩]))
    ⟨[], []⟩ [] (by rfl)

/-! ## Nested notes of suppressed parents -/

/--
Counterexample to C10 as stated: a note nested under a highlight whose
identity is in the index can still be written, because the linker may
attach the same note to a second, overlapping highlight that survives.
Here the suppressed highlight spans 100 to 200, the surviving one 100
to 150, and the note at 120 is nested under both; the emitted file
contains the note marker.
-/
theorem C10_counterexample :
    (∃ i ∈ link_notes_to_highlights
        [⟨CT.highlight, "AA".data, "aaaaaaaa".data, none, some 100, some 200, none⟩,
         ⟨CT.highlight, "BB".data, "bbbbbbbb".data, none, some 100, some 150, none⟩,
         ⟨CT.note, "NN".data, "cccccccc".data, none, some 120, some 120, none⟩],
      i.clip.hash = "aaaaaaaa".data ∧
      idxHas [("aaaaaaaa".data, "f.md".data)] i.clip.hash = true ∧
      ⟨CT.note, "NN".data, "cccccccc".data, none, some 120, some 120, none⟩ ∈ i.notes) ∧
    ((write_book_file id (fun _ => false)
        ⟨"T".data, "A".data,
          [⟨CT.highlight, "AA".data, "aaaaaaaa".data, none, some 100, some 200, none⟩,
           ⟨CT.highlight, "BB".data, "bbbbbbbb".data, none, some 100, some 150, none⟩,
           ⟨CT.note, "NN".data, "cccccccc".data, none, some 120, some 120, none⟩]⟩
        "out".data [("aaaaaaaa".data, "f.md".data)]
        ⟨3, "s.md".data, "t".data, "u".data, "f".data, true, true, true⟩
        false ⟨[], []⟩ []).toOption.map
      (fun r =>
        ((r.2.2.2.1.read (joinPath "out".data ("T.md".data))).map
          (fun c => containsSub (markerStr "cccccccc".data) c)).getD false)).getD false = true := by
  constructor
  · decide
  · decide

/--
Claim C10 amended: a nested note appears in the filtered output exactly
when some parent whose identity is absent from the index carries it and
the note identity itself is absent from the index.  In particular a
suppressed parent emits no block of its own, but a note it carries may
still be written under a different, surviving parent.
-/
theorem C10_suppressed_parent_notes (existing : Idx) (items : List Item) (n : Clip) :
    (∃ i ∈ filterNewItems existing items, n ∈ i.notes) ↔
    (∃ i ∈ items, idxHas existing i.clip.hash = false ∧ n ∈ i.notes ∧
      idxHas existing n.hash = false) := by
  unfold filterNewItems
  constructor
  · rintro ⟨i2, hi2, hn⟩
    have h2 := List.mem_filter.mp hi2
    obtain ⟨j, hj, rfl⟩ := List.mem_map.mp h2.1
    have htop := h2.2
    simp only [decide_eq_true_eq, Bool.not_eq_true] at htop
    have hn2 := List.mem_filter.mp hn
    have hfresh := hn2.2
    simp only [decide_eq_true_eq, Bool.not_eq_true] at hfresh
    exact ⟨j, hj, by simpa using htop, hn2.1, by simpa using hfresh⟩
  · rintro ⟨j, hj, htop, hn, hfresh⟩
    refine ⟨{ j with notes := j.notes.filter (fun m => ¬ idxHas existing m.hash) }, ?_, ?_⟩
    · refine List.mem_filter.mpr ⟨List.mem_map.mpr ⟨j, hj, rfl⟩, ?_⟩
      simp [htop]
    · exact List.mem_filter.mpr ⟨hn, by simp [hfresh]⟩

/-! ## Books with zero surviving items -/

/--
Counterexample to C4 as stated: with a single aggregate-routed book all
of whose items are already indexed, and no pre-existing aggregate file,
the writer still creates the aggregate file (holding only frontmatter).
-/
theorem C4_counterexample :
    (∀ bk ∈ [(⟨"T".data, "A".data,
        [⟨CT.highlight, "B".data, "aaaaaaaa".data, none, some 1, some 1, none⟩]⟩ : Book)],
      shortNew [("aaaaaaaa".data, "f.md".data)] bk = []) ∧
    FS.isFile ⟨[], []⟩ (joinPath "out".data "Short Notes.md".data) = false ∧
    ((write_short_notes_file (fun _ => false)
        [⟨"T".data, "A".data,
          [⟨CT.highlight, "B".data, "aaaaaaaa".data, none, some 1, some 1, none⟩]⟩]
        "out".data [("aaaaaaaa".data, "f.md".data)]
        ⟨3, "Short Notes.md".data, "t".data, "u".data, "f".data, true, true, true⟩
        false ⟨[], []⟩ []).toOption.map
      (fun r => r.2.2.2.1.isFile (joinPath "out".data "Short Notes.md".data))).getD false
      = true := by
  refine ⟨by decide, by decide, by decide⟩

theorem flatMap_shortSection_nil {existing : Idx} {shortBooks : List Book}
    (hall : ∀ b ∈ shortBooks, shortNew existing b = []) :
    shortBooks.flatMap (shortSection existing) = [] := by
  induction shortBooks with
  | nil => rfl
  | cons b bs ih =>
    rw [List.flatMap_cons]
    have h1 : shortSection existing b = [] := by
      unfold shortSection
      rw [if_pos (hall b (by simp))]
    rw [h1, List.nil_append]
    exact ih (fun b2 hb2 => hall b2 (List.mem_cons_of_mem _ hb2))

/--
Claim C4 amended: a book routed to its own file with zero surviving
items causes no creation or modification; when every aggregate-routed
book has zero surviving items the aggregate file is not modified if it
exists, but if it does not exist it is still created, holding only the
frontmatter header.
-/
theorem C4_zero_surviving (nfkd : Str → Str) (failW : Str → Bool)
    (shortBooks : List Book) (outputDir : Str) (existing : Idx) (cfg : Config)
    (fs : FS) (log : List Str) (book : Book)
    (hall : ∀ b ∈ shortBooks, shortNew existing b = [])
    (hbook : filterNewItems existing (link_notes_to_highlights book.clippings) = []) :
    write_book_file nfkd failW book outputDir existing cfg false fs log =
      .ok (0, (link_notes_to_highlights book.clippings).length, [], fs, log) ∧
    (fs.isFile (joinPath outputDir cfg.shortNotesFilename) = true →
      write_short_notes_file failW shortBooks outputDir existing cfg false fs log =
        .ok (0, 0, [], fs, log)) ∧
    (fs.isFile (joinPath outputDir cfg.shortNotesFilename) = false →
      failW outputDir = false →
      failW (joinPath outputDir cfg.shortNotesFilename) = false →
      write_short_notes_file failW shortBooks outputDir existing cfg false fs log =
        .ok (0, 0, [],
          (fs.mkdirs outputDir).createFile (joinPath outputDir cfg.shortNotesFilename)
            (joinNL (shortFrontmatter cfg)),
          log ++ ["  ".data ++ cfg.shortNotesFilename ++ ": ".data ++ natStr 0 ++
            " new from ".data ++ natStr 0 ++ " books".data])) := by
  have hflat : shortBooks.flatMap (shortSection existing) = [] :=
    flatMap_shortSection_nil hall
  have hsum : (shortBooks.map (fun b => (shortNew existing b).length)).sum = 0 := by
    rw [List.sum_eq_zero]
    intro x hx
    obtain ⟨b, hb, rfl⟩ := List.mem_map.mp hx
    rw [hall b hb]
    rfl
  have hcontrib : shortBooks.filter (fun b => decide (¬ shortNew existing b = [])) = [] := by
    rw [List.filter_eq_nil_iff]
    intro b hb
    simp [hall b hb]
  refine ⟨?_, ?_, ?_⟩
  · unfold write_book_file
    rw [if_pos hbook]
  · intro hex
    simp only [write_short_notes_file]
    rw [hex, hflat]
    simp
  · intro hex hw1 hw2
    simp only [write_short_notes_file]
    rw [hex, hflat, hsum, hcontrib]
    have hfm : shortFrontmatter cfg ≠ [] := by
      unfold shortFrontmatter
      split <;> simp
    simp only [List.append_nil, if_neg hfm, if_neg (by simp : ¬ (false = true)), hw1, hw2,
      List.map_nil, Bool.false_eq_true, if_false]
    rfl

/-- Witness for C4 at a concrete one-book configuration with no
pre-existing aggregate file. -/
theorem C4_zero_surviving_witness :
    write_short_notes_file (fun _ => false)
        [⟨"T".data, "A".data,
          [⟨CT.highlight, "B".data, "aaaaaaaa".data, none, some 1, some 1, none⟩]⟩]
        "out".data [("aaaaaaaa".data, "f.md".data)]
        ⟨3, "Short Notes.md".data, "t".data, "u".data, "f".data, true, true, true⟩
        false ⟨[], []⟩ [] =
      .ok (0, 0, [],
        ((⟨[], []⟩ : FS).mkdirs "out".data).createFile
          (joinPath "out".data "Short Notes.md".data)
          (joinNL (shortFrontmatter ⟨3, "Short Notes.md".data, "t".data, "u".data, "f".data,
            true, true, true⟩)),
        [] ++ ["  ".data ++ "Short Notes.md".data ++ ": ".data ++ natStr 0 ++
          " new from ".data ++ natStr 0 ++ " books".data]) :=
  ((C4_zero_surviving id (fun _ => false)
      [⟨"T".data, "A".data,
        [⟨CT.highlight, "B".data, "aaaaaaaa".data, none, some 1, some 1, none⟩]⟩]
      "out".data [("aaaaaaaa".data, "f.md".data)]
      ⟨3, "Short Notes.md".data, "t".data, "u".data, "f".data, true, true, true⟩
      ⟨[], []⟩ []
      ⟨"T".data, "A".data,
        [⟨CT.highlight, "B".data, "aaaaaaaa".data, none, some 1, some 1, none⟩]⟩
      (by decide) (by decide)).2.2) (by rfl) rfl rfl

/-! ## Pure description of a run without filesystem failures

The following definitions give closed forms for the state transitions
of the three writers when the failure oracles are constantly false; the
equation lemmas prove that the writers compute exactly these values. -/

/-- The constantly-false failure oracle (a normally working
filesystem). -/
def noFail : Str → Bool := fun _ => false

/-- The path of a book file. -/
def bookPath (nfkd : Str → Str) (outputDir : Str) (book : Book) : Str :=
  joinPath outputDir (sanitize_filename nfkd book.title ++ ".md".data)

/-- The path of the aggregate file. -/
def aggPath (outputDir : Str) (cfg : Config) : Str :=
  joinPath outputDir cfg.shortNotesFilename

/-- The lines a book write emits. -/
def bookLines (cfg : Config) (existing : Idx) (book : Book) (fileExists : Bool) : List Str :=
  (if fileExists then [] else bookFrontmatter cfg book.author) ++
    (shortNew existing book).flatMap clipBlock ++ ["---".data]

/-- Filesystem after one live book write. -/
def bkFS (nfkd : Str → Str) (outputDir : Str) (existing : Idx) (cfg : Config)
    (book : Book) (fs : FS) : FS :=
  if shortNew existing book = [] then fs
  else if fs.isFile (bookPath nfkd outputDir book) then
    (fs.mkdirs outputDir).appendFile (bookPath nfkd outputDir book)
      ('\n' :: joinNL (bookLines cfg existing book true))
  else
    (fs.mkdirs outputDir).createFile (bookPath nfkd outputDir book)
      (joinNL (bookLines cfg existing book false))

/-- Log lines of one live book write. -/
def bkConfirm (existing : Idx) (book : Book) : List Str :=
  if shortNew existing book = [] then []
  else ["  ".data ++ book.title ++ ": ".data ++
    natStr (shortNew existing book).length ++ " new".data]

theorem write_book_file_live (nfkd : Str → Str) (book : Book) (outputDir : Str)
    (existing : Idx) (cfg : Config) (fs : FS) (log : List Str) :
    write_book_file nfkd noFail book outputDir existing cfg false fs log =
      .ok ((shortNew existing book).length,
           (link_notes_to_highlights book.clippings).length,
           shortNew existing book,
           bkFS nfkd outputDir existing cfg book fs,
           log ++ bkConfirm existing book) := by
  simp only [write_book_file, bkFS, bkConfirm, bookPath, bookLines, shortNew, noFail]
  by_cases h : filterNewItems existing (link_notes_to_highlights book.clippings) = []
  · rw [if_pos h, if_pos h, if_pos h, h]
    simp
  · rw [if_neg h, if_neg h, if_neg h]
    simp only [Bool.false_eq_true, if_false, List.append_nil]
    by_cases hex : fs.isFile (joinPath outputDir (sanitize_filename nfkd book.title ++ ".md".data)) = true
    · rw [if_pos hex, if_pos hex, if_pos hex]
      simp
    · rw [if_neg hex, if_neg hex, if_neg hex]

theorem write_book_file_dry (nfkd failW : Str → _) (book : Book) (outputDir : Str)
    (existing : Idx) (cfg : Config) (fs : FS) (log : List Str) :
    write_book_file nfkd failW book outputDir existing cfg true fs log =
      .ok ((shortNew existing book).length,
           (link_notes_to_highlights book.clippings).length,
           shortNew existing book, fs, log) := by
  simp only [write_book_file, shortNew]
  by_cases h : filterNewItems existing (link_notes_to_highlights book.clippings) = []
  · rw [if_pos h, h]
    simp
  · rw [if_neg h]
    simp

/-- The aggregate-file lines of a live run. -/
def shortLines (existing : Idx) (cfg : Config) (shortBooks : List Book)
    (fileExists : Bool) : List Str :=
  (if fileExists then [] else shortFrontmatter cfg) ++
    shortBooks.flatMap (shortSection existing)

def shortTotal (existing : Idx) (shortBooks : List Book) : Nat :=
  (shortBooks.map (fun b => (shortNew existing b).length)).sum

def shortGroups (existing : Idx) (shortBooks : List Book) : List NewGroup :=
  (shortBooks.filter (fun b => ¬ shortNew existing b = [])).map
    (fun b => { bookTitle := b.title, bookAuthor := b.author, clippings := shortNew existing b })

/-- Filesystem after the live aggregate write. -/
def shortFS (outputDir : Str) (existing : Idx) (cfg : Config) (shortBooks : List Book)
    (fs : FS) : FS :=
  if shortLines existing cfg shortBooks (fs.isFile (aggPath outputDir cfg)) = [] then fs
  else if fs.isFile (aggPath outputDir cfg) then
    (fs.mkdirs outputDir).appendFile (aggPath outputDir cfg)
      ('\n' :: joinNL (shortLines existing cfg shortBooks true))
  else
    (fs.mkdirs outputDir).createFile (aggPath outputDir cfg)
      (joinNL (shortLines existing cfg shortBooks false))

/-- Log lines of the live aggregate write. -/
def shortConfirm (outputDir : Str) (existing : Idx) (cfg : Config)
    (shortBooks : List Book) (fs : FS) : List Str :=
  if shortLines existing cfg shortBooks (fs.isFile (aggPath outputDir cfg)) = [] then []
  else ["  ".data ++ cfg.shortNotesFilename ++ ": ".data ++
    natStr (shortTotal existing shortBooks) ++ " new from ".data ++
    natStr (shortGroups existing shortBooks).length ++ " books".data]

theorem shortSection_ne_nil {existing : Idx} {b : Book}
    (h : shortNew existing b ≠ []) : shortSection existing b ≠ [] := by
  unfold shortSection
  rw [if_neg h]
  simp

theorem shortLines_nil_all {existing : Idx} {cfg : Config} {shortBooks : List Book}
    {fe : Bool} (h : shortLines existing cfg shortBooks fe = []) :
    ∀ b ∈ shortBooks, shortNew existing b = [] := by
  intro b hb
  by_contra hne
  have h1 : shortSection existing b ≠ [] := shortSection_ne_nil hne
  have h2 : shortBooks.flatMap (shortSection existing) = [] := by
    unfold shortLines at h
    exact (List.append_eq_nil.mp h).2
  rw [List.flatMap_eq_nil_iff] at h2
  exact h1 (h2 b hb)

theorem shortTotal_zero_of_lines_nil {existing : Idx} {cfg : Config}
    {shortBooks : List Book} {fe : Bool}
    (h : shortLines existing cfg shortBooks fe = []) :
    shortTotal existing shortBooks = 0 ∧ shortGroups existing shortBooks = [] := by
  have hall := shortLines_nil_all h
  constructor
  · rw [shortTotal, List.sum_eq_zero]
    intro x hx
    obtain ⟨b, hb, rfl⟩ := List.mem_map.mp hx
    rw [hall b hb]
    rfl
  · rw [shortGroups, List.map_eq_nil_iff, List.filter_eq_nil_iff]
    intro b hb
    simp [hall b hb]

theorem write_short_notes_file_live (shortBooks : List Book) (outputDir : Str)
    (existing : Idx) (cfg : Config) (fs : FS) (log : List Str) :
    write_short_notes_file noFail shortBooks outputDir existing cfg false fs log =
      .ok (shortTotal existing shortBooks,
           (shortGroups existing shortBooks).length,
           shortGroups existing shortBooks,
           shortFS outputDir existing cfg shortBooks fs,
           log ++ shortConfirm outputDir existing cfg shortBooks fs) := by
  simp only [write_short_notes_file, shortFS, shortConfirm, noFail]
  by_cases h : shortLines existing cfg shortBooks (fs.isFile (aggPath outputDir cfg)) = []
  · obtain ⟨h0, hg⟩ := shortTotal_zero_of_lines_nil h
    rw [if_pos ?hc, if_pos h, if_pos h]
    · rw [h0, hg]
      simp
    · case hc =>
      have := h
      simp only [shortLines, aggPath] at this
      exact this
  · rw [if_neg ?hc, if_neg h, if_neg h]
    case hc =>
      have := h
      simp only [shortLines, aggPath] at this
      exact this
    simp only [Bool.false_eq_true, if_false, shortTotal, shortGroups, aggPath]
    rw [List.length_map]
    by_cases hex : fs.isFile (joinPath outputDir cfg.shortNotesFilename) = true
    · rw [if_pos hex, if_pos hex, if_pos hex]
      simp [shortLines, aggPath, hex]
    · rw [if_neg hex, if_neg hex, if_neg hex]
      simp [shortLines, aggPath, hex]

theorem write_short_notes_file_dry (failW : Str → Bool) (shortBooks : List Book)
    (outputDir : Str) (existing : Idx) (cfg : Config) (fs : FS) (log : List Str) :
    write_short_notes_file failW shortBooks outputDir existing cfg true fs log =
      .ok (shortTotal existing shortBooks,
           (shortGroups existing shortBooks).length,
           shortGroups existing shortBooks, fs, log) := by
  simp only [write_short_notes_file]
  by_cases h : shortLines existing cfg shortBooks (fs.isFile (aggPath outputDir cfg)) = []
  · obtain ⟨h0, hg⟩ := shortTotal_zero_of_lines_nil h
    rw [if_pos ?hc]
    · rw [h0, hg]
      simp
    · case hc =>
      have := h
      simp only [shortLines, aggPath] at this
      exact this
  · rw [if_neg ?hc]
    case hc =>
      have := h
      simp only [shortLines, aggPath] at this
      exact this
    simp only [shortTotal, shortGroups]
    rw [List.length_map]
    simp

def ilTotal (gs : List NewGroup) : Nat := (gs.map (fun g => g.clippings.length)).sum

/-- The import-log body. -/
def ilLines (cfg : Config) (now : Now) (gs : List NewGroup) : List Str :=
  ["---".data, "imported: ".data ++ now.fmTs,
   "total_new: ".data ++ natStr (ilTotal gs),
   "books: ".data ++ natStr gs.length] ++
  (if cfg.includeTags then ["tags:".data, "  - import-log".data] else []) ++
  ["---".data, [], "# Import Log - ".data ++ now.headTs, [],
   "**".data ++ natStr (ilTotal gs) ++ " new highlights** from **".data ++
     natStr gs.length ++ " books**".data, []] ++
  (pySort (fun x y => ¬ strLt y.bookTitle x.bookTitle) gs).flatMap importBookSection

/-- Filesystem after the live import-log write. -/
def ilFS (outputDir : Str) (cfg : Config) (now : Now) (gs : List NewGroup) (fs : FS) : FS :=
  if ilTotal gs = 0 then fs
  else (fs.mkdirs (importLogDir outputDir cfg)).truncWrite (importLogPath outputDir cfg now)
    (joinNL (ilLines cfg now gs))

def ilRet (outputDir : Str) (cfg : Config) (now : Now) (gs : List NewGroup) : Str :=
  if ilTotal gs = 0 then [] else importLogPath outputDir cfg now

def ilConfirm (now : Now) (gs : List NewGroup) : List Str :=
  if ilTotal gs = 0 then [] else ["Import log: ".data ++ importLogName now]

theorem write_import_log_live (gs : List NewGroup) (outputDir : Str) (cfg : Config)
    (now : Now) (fs : FS) (log : List Str) :
    write_import_log noFail gs outputDir cfg false now fs log =
      .ok (ilRet outputDir cfg now gs, ilFS outputDir cfg now gs fs,
           log ++ ilConfirm now gs) := by
  simp only [write_import_log, ilRet, ilFS, ilConfirm, ilTotal, ilLines, noFail]
  by_cases h : (gs.map (fun g => g.clippings.length)).sum = 0
  · rw [if_pos h, if_pos h, if_pos h, if_pos h]
    simp
  · rw [if_neg h, if_neg h, if_neg h, if_neg h]
    simp

theorem write_import_log_dry (failW : Str → Bool) (gs : List NewGroup) (outputDir : Str)
    (cfg : Config) (now : Now) (fs : FS) (log : List Str) :
    write_import_log failW gs outputDir cfg true now fs log =
      .ok (ilRet outputDir cfg now gs, fs, log) := by
  simp only [write_import_log, ilRet, ilTotal]
  by_cases h : (gs.map (fun g => g.clippings.length)).sum = 0
  · rw [if_pos h, if_pos h]
  · rw [if_neg h, if_neg h]
    simp

/-! ## The regular-books loop in closed form -/

def regTotal (existing : Idx) (bs : List (Str × Book)) : Nat :=
  (bs.map (fun kb => (shortNew existing kb.2).length)).sum

def regGroups (existing : Idx) (bs : List (Str × Book)) : List NewGroup :=
  bs.filterMap (fun kb =>
    if shortNew existing kb.2 = [] then none
    else some { bookTitle := kb.2.title, bookAuthor := kb.2.author,
                clippings := shortNew existing kb.2 })

def regFoldFS (nfkd : Str → Str) (outputDir : Str) (existing : Idx) (cfg : Config) :
    List (Str × Book) → FS → FS
  | [], fs => fs
  | kb :: rest, fs =>
    regFoldFS nfkd outputDir existing cfg rest (bkFS nfkd outputDir existing cfg kb.2 fs)

def regConfirms (existing : Idx) (bs : List (Str × Book)) : List Str :=
  bs.flatMap (fun kb => bkConfirm existing kb.2)

theorem processBooks_live (nfkd : Str → Str) (outputDir : Str) (existing : Idx)
    (cfg : Config) (bs : List (Str × Book)) :
    ∀ tn gs fs log,
      processBooks nfkd noFail outputDir existing cfg false bs tn gs fs log =
        .ok (tn + regTotal existing bs, gs ++ regGroups existing bs,
             regFoldFS nfkd outputDir existing cfg bs fs, log ++ regConfirms existing bs) := by
  induction bs with
  | nil =>
    intro tn gs fs log
    simp [processBooks, regTotal, regGroups, regFoldFS, regConfirms]
  | cons kb rest ih =>
    intro tn gs fs log
    obtain ⟨k, b⟩ := kb
    simp only [processBooks]
    rw [write_book_file_live]
    simp only []
    rw [ih]
    simp only [regTotal, regGroups, regFoldFS, regConfirms, List.map_cons, List.sum_cons,
      List.filterMap_cons, List.flatMap_cons, bkConfirm]
    by_cases h : shortNew existing b = []
    · rw [if_pos h, if_pos h, if_pos h, h]
      simp [Nat.add_assoc]
    · rw [if_neg h, if_neg h, if_neg h]
      simp [Nat.add_assoc]

theorem processBooks_dry (nfkd : Str → Str) (failW : Str → Bool) (outputDir : Str)
    (existing : Idx) (cfg : Config) (bs : List (Str × Book)) :
    ∀ tn gs fs log,
      processBooks nfkd failW outputDir existing cfg true bs tn gs fs log =
        .ok (tn + regTotal existing bs, gs ++ regGroups existing bs, fs, log) := by
  induction bs with
  | nil =>
    intro tn gs fs log
    simp [processBooks, regTotal, regGroups]
  | cons kb rest ih =>
    intro tn gs fs log
    obtain ⟨k, b⟩ := kb
    simp only [processBooks]
    rw [write_book_file_dry]
    simp only []
    rw [ih]
    simp only [regTotal, regGroups, List.map_cons, List.sum_cons, List.filterMap_cons]
    by_cases h : shortNew existing b = []
    · rw [if_pos h, if_pos h, h]
      simp [Nat.add_assoc]
    · rw [if_neg h, if_neg h]
      simp [Nat.add_assoc]

/-! ## A full sync run in closed form -/

theorem except_bind_ok {ε α β : Type} (a : α) (f : α → Except ε β) :
    (Except.ok a >>= f : Except ε β) = f a := rfl

/-- Bundled inputs of one sync run. -/
structure Env where
  nfkd : Str → Str
  parseDate : Str → Option Nat
  failR : Str → Bool
  content : Str
  outputDir : Str
  cfg : Config
  now : Now
  fs0 : FS

namespace Env

def books (e : Env) : List (Str × Book) := parse_clippings e.parseDate e.content

def idx (e : Env) : Idx := scan_existing_hashes e.failR e.fs0 e.outputDir

def regular (e : Env) : List (Str × Book) :=
  e.books.filter (fun kb => decide (e.cfg.minHighlights ≤ hlCount kb.2))

def shorts (e : Env) : List Book :=
  (e.books.filter (fun kb => ¬ decide (e.cfg.minHighlights ≤ hlCount kb.2))).map
    (fun kb => kb.2)

def sortedReg (e : Env) : List (Str × Book) :=
  pySort (fun x y => ¬ strLt y.1 x.1) e.regular

def fs1 (e : Env) : FS := regFoldFS e.nfkd e.outputDir e.idx e.cfg e.sortedReg e.fs0

def fs2 (e : Env) : FS :=
  if e.shorts = [] then e.fs1 else shortFS e.outputDir e.idx e.cfg e.shorts e.fs1

def groupsAll (e : Env) : List NewGroup :=
  regGroups e.idx e.sortedReg ++ (if e.shorts = [] then [] else shortGroups e.idx e.shorts)

def totalNew (e : Env) : Nat :=
  regTotal e.idx e.sortedReg + (if e.shorts = [] then 0 else shortTotal e.idx e.shorts)

def fs3 (e : Env) : FS :=
  if e.groupsAll ≠ [] ∧ e.cfg.createImportLog = true then
    ilFS e.outputDir e.cfg e.now e.groupsAll e.fs2
  else e.fs2

def importPath (e : Env) : Str :=
  if e.groupsAll ≠ [] ∧ e.cfg.createImportLog = true then
    ilRet e.outputDir e.cfg e.now e.groupsAll
  else []

def logPre (e : Env) : List Str :=
  ["Parsing clippings file...".data,
   "Found ".data ++ natStr e.books.length ++ " books".data,
   "Scanning existing files...".data,
   "Found ".data ++ natStr e.idx.length ++ " existing highlights".data,
   "Books with ".data ++ natStr e.cfg.minHighlights ++ "+ highlights: ".data ++
     natStr e.regular.length,
   "Books with <".data ++ natStr e.cfg.minHighlights ++ " highlights: ".data ++
     natStr e.shorts.length,
   []]

def logLive (e : Env) : List Str :=
  e.logPre ++
  (if e.regular = [] then [] else
    ["Processing book files:".data] ++ regConfirms e.idx e.sortedReg ++ [[]]) ++
  (if e.shorts = [] then [] else
    ["Processing short notes:".data] ++
      shortConfirm e.outputDir e.idx e.cfg e.shorts e.fs1 ++ [[]]) ++
  (if e.groupsAll ≠ [] ∧ e.cfg.createImportLog = true then
    ["Creating import log:".data] ++ ilConfirm e.now e.groupsAll ++ [[]]
   else []) ++
  ["Done! Added ".data ++ natStr e.totalNew ++ " new highlights.".data]

def logDry (e : Env) : List Str :=
  e.logPre ++
  (if e.regular = [] then [] else ["Processing book files:".data] ++ [[]]) ++
  (if e.shorts = [] then [] else ["Processing short notes:".data] ++ [[]]) ++
  (if e.groupsAll ≠ [] ∧ e.cfg.createImportLog = true then
    ["Creating import log:".data] ++ [[]]
   else []) ++
  ["Done! Added ".data ++ natStr e.totalNew ++ " new highlights.".data]

def summary (e : Env) : Summary :=
  { totalBooks := e.books.length, newHighlights := e.totalNew,
    regularBooks := e.regular.length, shortBooks := e.shorts.length,
    importLog := e.importPath }

end Env

theorem shortTotal_nil (existing : Idx) : shortTotal existing [] = 0 := rfl

theorem shortGroups_nil (existing : Idx) : shortGroups existing [] = [] := rfl

theorem sync_highlights_live (e : Env) :
    sync_highlights e.nfkd noFail e.failR e.parseDate (some e.content) e.outputDir e.cfg
      false e.now e.fs0 = .ok (e.summary, e.fs3, e.logLive) := by
  simp only [sync_highlights, except_bind_ok, Env.summary, Env.fs3, Env.logLive,
    Env.importPath, Env.totalNew, Env.groupsAll, Env.fs2, Env.fs1, Env.sortedReg, Env.logPre,
    Env.shorts, Env.regular, Env.idx, Env.books]
  by_cases hreg : (parse_clippings e.parseDate e.content).filter
      (fun kb => decide (e.cfg.minHighlights ≤ hlCount kb.2)) = []
  · rw [if_pos hreg, hreg]
    simp only [pySort, List.foldr_nil, regFoldFS, regTotal, regGroups, regConfirms,
      List.map_nil, List.sum_nil, List.filterMap_nil, List.flatMap_nil, except_bind_ok,
      List.nil_append, List.append_nil, Nat.zero_add, Nat.add_zero]
    by_cases hsh : ((parse_clippings e.parseDate e.content).filter
        (fun kb => ¬ decide (e.cfg.minHighlights ≤ hlCount kb.2))).map (fun kb => kb.2) = []
    · rw [if_pos hsh, hsh]
      simp only [shortTotal_nil, shortGroups_nil, except_bind_ok, List.append_nil,
        Nat.add_zero, reduceIte, ne_eq, not_true_eq_false, false_and, if_false]
      rfl
    · rw [if_neg hsh]
      rw [write_short_notes_file_live]
      simp only [except_bind_ok, List.nil_append]
      split
      · next hil =>
        rw [write_import_log_live]
        simp only [except_bind_ok, List.append_assoc, List.cons_append, List.nil_append,
          List.append_nil]
        all_goals rfl
      · next hil =>
        simp only [List.append_assoc, List.cons_append, List.nil_append, List.append_nil]
        all_goals rfl
  · rw [if_neg hreg]
    rw [processBooks_live]
    simp only [except_bind_ok, Nat.zero_add, List.nil_append]
    by_cases hsh : ((parse_clippings e.parseDate e.content).filter
        (fun kb => ¬ decide (e.cfg.minHighlights ≤ hlCount kb.2))).map (fun kb => kb.2) = []
    · rw [if_pos hsh, hsh]
      simp only [shortTotal_nil, shortGroups_nil, except_bind_ok, List.append_nil,
        Nat.add_zero, reduceIte]
      split
      · next hil =>
        rw [write_import_log_live]
        simp only [except_bind_ok, List.append_assoc, List.cons_append, List.nil_append,
          List.append_nil]
        all_goals rfl
      · next hil =>
        simp only [List.append_assoc, List.cons_append, List.nil_append, List.append_nil]
        all_goals rfl
    · rw [if_neg hsh]
      rw [write_short_notes_file_live]
      simp only [except_bind_ok, List.nil_append]
      split
      · next hil =>
        rw [write_import_log_live]
        simp only [except_bind_ok, List.append_assoc, List.cons_append, List.nil_append,
          List.append_nil]
        all_goals rfl
      · next hil =>
        simp only [List.append_assoc, List.cons_append, List.nil_append, List.append_nil]
        all_goals rfl

theorem sync_highlights_dry (failW : Str → Bool) (e : Env) :
    sync_highlights e.nfkd failW e.failR e.parseDate (some e.content) e.outputDir e.cfg
      true e.now e.fs0 = .ok (e.summary, e.fs0, e.logDry) := by
  simp only [sync_highlights, except_bind_ok, Env.summary, Env.logDry,
    Env.importPath, Env.totalNew, Env.groupsAll, Env.sortedReg, Env.logPre,
    Env.shorts, Env.regular, Env.idx, Env.books]
  by_cases hreg : (parse_clippings e.parseDate e.content).filter
      (fun kb => decide (e.cfg.minHighlights ≤ hlCount kb.2)) = []
  · rw [if_pos hreg, hreg]
    simp only [pySort, List.foldr_nil, regTotal, regGroups,
      List.map_nil, List.sum_nil, List.filterMap_nil, except_bind_ok,
      List.nil_append, List.append_nil, Nat.zero_add, Nat.add_zero]
    by_cases hsh : ((parse_clippings e.parseDate e.content).filter
        (fun kb => ¬ decide (e.cfg.minHighlights ≤ hlCount kb.2))).map (fun kb => kb.2) = []
    · rw [if_pos hsh, hsh]
      simp only [shortTotal_nil, shortGroups_nil, except_bind_ok, List.append_nil,
        Nat.add_zero, reduceIte, ne_eq, not_true_eq_false, false_and, if_false]
      all_goals rfl
    · rw [if_neg hsh]
      rw [write_short_notes_file_dry]
      simp only [except_bind_ok, List.nil_append]
      split
      · next hil =>
        rw [write_import_log_dry]
        simp only [except_bind_ok, List.append_assoc, List.cons_append, List.nil_append,
          List.append_nil]
        all_goals rfl
      · next hil =>
        simp only [List.append_assoc, List.cons_append, List.nil_append, List.append_nil]
        all_goals rfl
  · rw [if_neg hreg]
    rw [processBooks_dry]
    simp only [except_bind_ok, Nat.zero_add, List.nil_append]
    by_cases hsh : ((parse_clippings e.parseDate e.content).filter
        (fun kb => ¬ decide (e.cfg.minHighlights ≤ hlCount kb.2))).map (fun kb => kb.2) = []
    · rw [if_pos hsh, hsh]
      simp only [shortTotal_nil, shortGroups_nil, except_bind_ok, List.append_nil,
        Nat.add_zero, reduceIte]
      split
      · next hil =>
        rw [write_import_log_dry]
        simp only [except_bind_ok, List.append_assoc, List.cons_append, List.nil_append,
          List.append_nil]
        all_goals rfl
      · next hil =>
        simp only [List.append_assoc, List.cons_append, List.nil_append, List.append_nil]
        all_goals rfl
    · rw [if_neg hsh]
      rw [write_short_notes_file_dry]
      simp only [except_bind_ok, List.nil_append]
      split
      · next hil =>
        rw [write_import_log_dry]
        simp only [except_bind_ok, List.append_assoc, List.cons_append, List.nil_append,
          List.append_nil]
        all_goals rfl
      · next hil =>
        simp only [List.append_assoc, List.cons_append, List.nil_append, List.append_nil]
        all_goals rfl

/-! ## Dry-run behaviour -/

/--
Counterexample to C3 as stated: on a one-highlight input against an
empty output directory the dry run logs strictly fewer lines than the
live run, because the per-file confirmation lines (writer.py lines
122, 237 and 337) are emitted inside the `if not dry_run` blocks.
-/
theorem C3_counterexample :
    ((sync_highlights id noFail noFail (fun _ => none)
        (some ("T (A)\n- Your Highlight | Location 1 | Added on D\n\nBody\n==========").data)
        "out".data
        ⟨3, "Short Notes.md".data, "books".data, "short-notes".data, "Import Logs".data,
          true, true, true⟩
        true ⟨"X".data, "Y".data, "Z".data⟩ ⟨[], []⟩).toOption.map (fun r => r.2.2)) ≠
    ((sync_highlights id noFail noFail (fun _ => none)
        (some ("T (A)\n- Your Highlight | Location 1 | Added on D\n\nBody\n==========").data)
        "out".data
        ⟨3, "Short Notes.md".data, "books".data, "short-notes".data, "Import Logs".data,
          true, true, true⟩
        false ⟨"X".data, "Y".data, "Z".data⟩ ⟨[], []⟩).toOption.map (fun r => r.2.2)) := by
  decide

/--
Claim C3 amended: the dry run performs no filesystem writes of any kind
(the filesystem it returns is the input filesystem, for every failure
oracle) and returns the same summary as the live run; its logged lines
are those of the live run minus the per-file confirmation lines, so the
dry log is a sublist of the live log rather than equal to it.
-/
theorem C3_dry_run_purity (failW : Str → Bool) (e : Env) :
    ∃ s fsL logD logL,
      sync_highlights e.nfkd failW e.failR e.parseDate (some e.content) e.outputDir e.cfg
        true e.now e.fs0 = .ok (s, e.fs0, logD) ∧
      sync_highlights e.nfkd noFail e.failR e.parseDate (some e.content) e.outputDir e.cfg
        false e.now e.fs0 = .ok (s, fsL, logL) ∧
      logD.Sublist logL := by
  refine ⟨e.summary, e.fs3, e.logDry, e.logLive,
    sync_highlights_dry failW e, sync_highlights_live e, ?_⟩
  unfold Env.logDry Env.logLive
  refine List.Sublist.append
    (List.Sublist.append
      (List.Sublist.append
        (List.Sublist.append (List.Sublist.refl _) ?_) ?_) ?_)
    (List.Sublist.refl _)
  · split
    · exact List.Sublist.refl _
    · exact List.Sublist.append (List.sublist_append_left _ _) (List.Sublist.refl _)
  · split
    · exact List.Sublist.refl _
    · exact List.Sublist.append (List.sublist_append_left _ _) (List.Sublist.refl _)
  · split
    · exact List.Sublist.append (List.sublist_append_left _ _) (List.Sublist.refl _)
    · exact List.Sublist.refl _

/-! ## Error propagation of the core entry operation -/

/--
Counterexample to C5 as stated: the same readable input succeeds on a
working filesystem but propagates an error when directory creation and
write-opens fail, because the writers have no handler around
`os.makedirs` and the write `open` calls.
-/
theorem C5_counterexample :
    (sync_highlights id (fun _ => true) noFail (fun _ => none)
        (some ("T (A)\n- Your Highlight | Location 1 | Added on D\n\nBody\n==========").data)
        "out".data
        ⟨3, "Short Notes.md".data, "books".data, "short-notes".data, "Import Logs".data,
          true, true, true⟩
        false ⟨"X".data, "Y".data, "Z".data⟩ ⟨[], []⟩).isOk = false ∧
    (sync_highlights id noFail noFail (fun _ => none)
        (some ("T (A)\n- Your Highlight | Location 1 | Added on D\n\nBody\n==========").data)
        "out".data
        ⟨3, "Short Notes.md".data, "books".data, "short-notes".data, "Import Logs".data,
          true, true, true⟩
        false ⟨"X".data, "Y".data, "Z".data⟩ ⟨[], []⟩).isOk = true := by
  exact ⟨rfl, rfl⟩

/--
Claim C5 amended: the operation propagates an error when the input file
cannot be opened or read, and also when a directory creation or output
write fails; with the input readable and all writes succeeding it
returns a summary for every input content, configuration, filesystem
state and read-failure pattern (malformed segments are skipped during
parsing and unreadable existing output files are skipped during the
scan, neither aborts the run).
-/
theorem C5_error_propagation (failW : Str → Bool) (e : Env) (dryRun : Bool) :
    (sync_highlights e.nfkd noFail e.failR e.parseDate (some e.content) e.outputDir e.cfg
      dryRun e.now e.fs0).isOk = true ∧
    sync_highlights e.nfkd failW e.failR e.parseDate none e.outputDir e.cfg
      dryRun e.now e.fs0 = .error () := by
  constructor
  · cases dryRun
    · rw [sync_highlights_live e]
      rfl
    · rw [sync_highlights_dry noFail e]
      rfl
  · rfl

/-! ## Filesystem lemmas -/

theorem findVal_append_left {β : Type} {l l2 : List (Str × β)} {q : Str} {c : β}
    (h : findVal l q = some c) : findVal (l ++ l2) q = some c := by
  induction l with
  | nil => cases h
  | cons e r ih =>
    obtain ⟨k, v⟩ := e
    simp only [findVal, List.cons_append] at h ⊢
    split at h
    · next hk => rw [if_pos hk]; exact h
    · next hk => rw [if_neg hk]; exact ih h

theorem findVal_append_new {β : Type} {l : List (Str × β)} {p : Str} {c : β}
    (h : findVal l p = none) : findVal (l ++ [(p, c)]) p = some c := by
  induction l with
  | nil => simp [findVal]
  | cons e r ih =>
    obtain ⟨k, v⟩ := e
    simp only [findVal, List.cons_append] at h ⊢
    split at h
    · cases h
    · next hk => rw [if_neg hk]; exact ih h

theorem findVal_update {β : Type} (g : β → β) (p : Str) (l : List (Str × β)) (q : Str) :
    findVal (l.map (fun e => if e.1 = p then (e.1, g e.2) else e)) q =
      if q = p then (findVal l q).map g else findVal l q := by
  induction l with
  | nil => simp [findVal]
  | cons e r ih =>
    obtain ⟨k, v⟩ := e
    simp only [List.map_cons]
    by_cases hkp : k = p
    · rw [if_pos hkp]
      simp only [findVal]
      by_cases hkq : k = q
      · have hqp : q = p := by rw [← hkq, hkp]
        rw [if_pos hkq, if_pos hkq, if_pos hqp]
        rfl
      · rw [if_neg hkq, if_neg hkq, ih]
    · rw [if_neg hkp]
      simp only [findVal]
      by_cases hkq : k = q
      · have hqp : ¬ q = p := by rw [← hkq]; exact hkp
        rw [if_pos hkq, if_pos hkq, if_neg hqp]
      · rw [if_neg hkq, if_neg hkq, ih]

theorem findVal_append_singleton_ne {β : Type} {l : List (Str × β)} {p q : Str} {c : β}
    (hq : q ≠ p) : findVal (l ++ [(p, c)]) q = findVal l q := by
  induction l with
  | nil =>
    simp only [List.nil_append, findVal]
    rw [if_neg (fun h => hq h.symm)]
  | cons e r ih =>
    obtain ⟨k, v⟩ := e
    simp only [findVal, List.cons_append]
    split
    · rfl
    · exact ih

/-- Old files keep their bytes as a prefix. -/
def extendsFiles (fs fs2 : FS) : Prop :=
  ∀ p c, findVal fs.files p = some c → ∃ d, findVal fs2.files p = some (c ++ d)

/-- Old files other than `avoid` keep their bytes as a prefix. -/
def extendsExcept (avoid : Str) (fs fs2 : FS) : Prop :=
  ∀ p c, p ≠ avoid → findVal fs.files p = some c → ∃ d, findVal fs2.files p = some (c ++ d)

theorem extendsFiles_refl (fs : FS) : extendsFiles fs fs := by
  intro p c h
  exact ⟨[], by rw [List.append_nil]; exact h⟩

theorem extendsFiles_trans {fs1 fs2 fs3 : FS} (h1 : extendsFiles fs1 fs2)
    (h2 : extendsFiles fs2 fs3) : extendsFiles fs1 fs3 := by
  intro p c h
  obtain ⟨d1, hd1⟩ := h1 p c h
  obtain ⟨d2, hd2⟩ := h2 p _ hd1
  exact ⟨d1 ++ d2, by rw [← List.append_assoc]; exact hd2⟩

theorem extendsFiles_mkdirs (fs : FS) (d : Str) : extendsFiles fs (fs.mkdirs d) := by
  intro p c h
  refine ⟨[], ?_⟩
  rw [List.append_nil]
  unfold FS.mkdirs
  split <;> exact h

theorem extendsFiles_createFile {fs : FS} {p c : Str} :
    extendsFiles fs (fs.createFile p c) := by
  intro q cq h
  exact ⟨[], by rw [List.append_nil]; exact findVal_append_left h⟩

theorem appendFile_eq_update (fs : FS) (p d : Str) :
    (fs.appendFile p d).files =
      fs.files.map (fun e => if e.1 = p then (e.1, (fun x => x ++ d) e.2) else e) := rfl

theorem read_appendFile (fs : FS) (p d q : Str) :
    findVal (fs.appendFile p d).files q =
      if q = p then (findVal fs.files q).map (fun x => x ++ d) else findVal fs.files q := by
  rw [appendFile_eq_update, findVal_update (fun x => x ++ d) p fs.files q]

theorem extendsFiles_appendFile (fs : FS) (p d : Str) :
    extendsFiles fs (fs.appendFile p d) := by
  intro q cq h
  rw [read_appendFile]
  by_cases hq : q = p
  · rw [if_pos hq, h]
    exact ⟨d, rfl⟩
  · rw [if_neg hq, h]
    exact ⟨[], by rw [List.append_nil]⟩

theorem truncWrite_files_eq_update (fs : FS) (p c : Str) (h : fs.isFile p = true) :
    (fs.truncWrite p c).files =
      fs.files.map (fun e => if e.1 = p then (e.1, (fun _ => c) e.2) else e) := by
  unfold FS.truncWrite
  rw [if_pos h]

theorem read_truncWrite_other {fs : FS} {p c q : Str} (hq : q ≠ p) :
    findVal (fs.truncWrite p c).files q = findVal fs.files q := by
  by_cases h : fs.isFile p = true
  · rw [truncWrite_files_eq_update fs p c h, findVal_update (fun _ => c) p fs.files q,
      if_neg hq]
  · unfold FS.truncWrite
    rw [if_neg h]
    exact findVal_append_singleton_ne hq

theorem extendsExcept_truncWrite (fs : FS) (p c : Str) :
    extendsExcept p fs (fs.truncWrite p c) := by
  intro q cq hq h
  refine ⟨[], ?_⟩
  rw [List.append_nil, read_truncWrite_other hq]
  exact h

theorem extendsFiles_imp_except {avoid : Str} {fs fs2 : FS} (h : extendsFiles fs fs2) :
    extendsExcept avoid fs fs2 := fun p c _ hp => h p c hp

theorem extendsExcept_trans {avoid : Str} {fs1 fs2 fs3 : FS}
    (h1 : extendsExcept avoid fs1 fs2) (h2 : extendsExcept avoid fs2 fs3) :
    extendsExcept avoid fs1 fs3 := by
  intro p c hp h
  obtain ⟨d1, hd1⟩ := h1 p c hp h
  obtain ⟨d2, hd2⟩ := h2 p _ hp hd1
  exact ⟨d1 ++ d2, by rw [← List.append_assoc]; exact hd2⟩

/-! ## Marker extraction lemmas -/

/-- Well-formed identity text: 8 lowercase hexadecimal characters. -/
def hashOk (h : Str) : Prop := h.length = 8 ∧ ∀ c ∈ h, isHexC c = true

theorem litConsume_eq_some {lit s r : Str} : litConsume lit s = some r ↔ s = lit ++ r := by
  unfold litConsume
  constructor
  · intro h
    split at h
    · next hp =>
      have hpre := List.isPrefixOf_iff_prefix.mp hp
      obtain ⟨t, ht⟩ := hpre
      injection h with h2
      rw [← ht, ← h2, ← ht]
      rw [List.drop_left]
    · cases h
  · intro h
    subst h
    rw [if_pos (List.isPrefixOf_iff_prefix.mpr ⟨r, rfl⟩)]
    rw [List.drop_left]

theorem matchMarkerAt_some_iff {s h : Str} :
    matchMarkerAt s = some h ↔ hashOk h ∧ ∃ y, s = markerStr h ++ y := by
  constructor
  · intro hm
    unfold matchMarkerAt at hm
    cases hpre : litConsume markerPre s with
    | none => rw [hpre] at hm; cases hm
    | some r =>
      rw [hpre] at hm
      simp only [Option.bind_eq_bind, Option.some_bind] at hm
      split at hm
      · next hchk =>
        cases hsuf : litConsume markerSuf (r.drop 8) with
        | none => rw [hsuf] at hm; cases hm
        | some rest =>
          rw [hsuf] at hm
          simp only [Option.bind_eq_bind, Option.some_bind] at hm
          injection hm with hm2
          subst hm2
          have hs := litConsume_eq_some.mp hpre
          have hr := litConsume_eq_some.mp hsuf
          simp only [Bool.and_eq_true, decide_eq_true_eq] at hchk
          refine ⟨⟨hchk.1, fun c hc => ?_⟩, rest, ?_⟩
          · have := List.all_eq_true.mp hchk.2 c hc
            simpa using this
          · rw [hs, markerStr, List.append_assoc, List.append_assoc]
            congr 1
            rw [← hr]
            exact (List.take_append_drop 8 r).symm
      · cases hm
  · rintro ⟨⟨hlen, hhex⟩, y, rfl⟩
    unfold matchMarkerAt markerStr
    rw [List.append_assoc, List.append_assoc]
    rw [show litConsume markerPre (markerPre ++ (h ++ (markerSuf ++ y))) =
      some (h ++ (markerSuf ++ y)) from litConsume_eq_some.mpr rfl]
    simp only [Option.bind_eq_bind, Option.some_bind]
    rw [List.take_left' hlen, List.drop_left' hlen]
    rw [if_pos ?hc]
    case hc =>
      rw [Bool.and_eq_true]
      exact ⟨by simp [hlen], List.all_eq_true.mpr fun c hc => by simpa using hhex c hc⟩
    rw [show litConsume markerSuf (markerSuf ++ y) = some y from litConsume_eq_some.mpr rfl]
    rfl

theorem mem_extractHashes_marker {h : Str} (hh : hashOk h) :
    ∀ (x y : Str), h ∈ extractHashes (x ++ (markerStr h ++ y)) := by
  intro x
  induction x with
  | nil =>
    intro y
    rw [List.nil_append]
    have hne : markerStr h ++ y ≠ [] := by
      simp [markerStr, markerPre]
    cases hcase : markerStr h ++ y with
    | nil => exact absurd hcase hne
    | cons a rest =>
      rw [extractHashes]
      rw [show matchMarkerAt (a :: rest) = some h from
        matchMarkerAt_some_iff.mpr ⟨hh, y, hcase.symm⟩]
      exact List.mem_cons_self _ _
  | cons a x ih =>
    intro y
    rw [List.cons_append, extractHashes]
    cases hm : matchMarkerAt (a :: (x ++ (markerStr h ++ y))) with
    | some h2 => exact List.mem_cons_of_mem _ (ih y)
    | none => exact ih y

theorem extractHashes_append {h c : Str} (hc : h ∈ extractHashes c) (d : Str) :
    h ∈ extractHashes (c ++ d) := by
  induction c with
  | nil => cases hc
  | cons a r ih =>
    rw [extractHashes] at hc
    rw [List.cons_append, extractHashes]
    cases hm : matchMarkerAt (a :: r) with
    | some h2 =>
      rw [hm] at hc
      obtain ⟨hok, y, hy⟩ := matchMarkerAt_some_iff.mp hm
      have hm2 : matchMarkerAt (a :: (r ++ d)) = some h2 := by
        refine matchMarkerAt_some_iff.mpr ⟨hok, y ++ d, ?_⟩
        rw [show a :: (r ++ d) = (a :: r) ++ d from rfl, hy]
        rw [List.append_assoc]
      rw [hm2]
      rcases List.mem_cons.mp hc with rfl | hc2
      · exact List.mem_cons_self _ _
      · exact List.mem_cons_of_mem _ (ih hc2)
    | none =>
      rw [hm] at hc
      cases hm2 : matchMarkerAt (a :: (r ++ d)) with
      | some h3 => exact List.mem_cons_of_mem _ (ih hc)
      | none => exact ih hc

/-! ## Lines, names and the existing-state scan -/

theorem joinNL_mem_substring {l : Str} {lines : List Str} (hl : l ∈ lines) :
    ∃ x y, joinNL lines = x ++ (l ++ y) := by
  induction lines with
  | nil => cases hl
  | cons a rest ih =>
    rcases List.mem_cons.mp hl with rfl | hl2
    · cases rest with
      | nil => exact ⟨[], [], by simp [joinNL]⟩
      | cons b r => exact ⟨[], '\n' :: joinNL (b :: r), by simp [joinNL]⟩
    · cases rest with
      | nil => cases hl2
      | cons b r =>
        obtain ⟨x, y, hxy⟩ := ih hl2
        refine ⟨a ++ '\n' :: x, y, ?_⟩
        show a ++ '\n' :: joinNL (b :: r) = _
        rw [hxy]
        simp

/-- A filename the scanner will visit: non-empty, without a path
separator, with the Markdown extension. -/
def rootName (name : Str) : Prop :=
  name ≠ [] ∧ name.contains '/' = false ∧ (".md".data).isSuffixOf name = true

/-- The identity occurs in a scannable file directly inside the output
directory. -/
def rootMarker (fs : FS) (outDir h : Str) : Prop :=
  ∃ name content, rootName name ∧
    findVal fs.files (joinPath outDir name) = some content ∧ h ∈ extractHashes content

theorem joinPath_eq (outDir name : Str) : joinPath outDir name = (outDir ++ ['/']) ++ name := by
  unfold joinPath
  rw [List.append_assoc]
  rfl

theorem relName_joinPath {outDir name : Str} (h1 : name ≠ [])
    (h2 : name.contains '/' = false) :
    relName outDir (joinPath outDir name) = some name := by
  unfold relName
  rw [joinPath_eq]
  rw [if_pos (List.isPrefixOf_iff_prefix.mpr ⟨name, rfl⟩)]
  have hd : ((outDir ++ ['/']) ++ name).drop (outDir.length + 1) = name :=
    List.drop_left' (by simp)
  simp only [hd]
  have hcond : (decide (name = []) || name.contains '/') = false := by
    rw [h2, Bool.or_false]
    exact decide_eq_false h1
  rw [if_neg (by rw [hcond]; simp)]

theorem relName_props {base p name : Str} (h : relName base p = some name) :
    name ≠ [] ∧ name.contains '/' = false := by
  unfold relName at h
  split at h
  · simp only [] at h
    split at h
    · cases h
    · next hcond =>
      injection h with h2
      subst h2
      simp only [Bool.or_eq_true, not_or, decide_eq_true_eq] at hcond
      push_neg at hcond
      exact ⟨hcond.1, by simpa using hcond.2⟩
  · cases h

theorem findVal_mem {β : Type} {l : List (Str × β)} {q : Str} {c : β}
    (h : findVal l q = some c) : (q, c) ∈ l := by
  induction l with
  | nil => cases h
  | cons e r ih =>
    obtain ⟨k, v⟩ := e
    simp only [findVal] at h
    split at h
    · next hk =>
      injection h with h2
      subst h2
      subst hk
      exact List.mem_cons_self _ _
    · exact List.mem_cons_of_mem _ (ih h)

theorem mem_listNames_of_file {fs : FS} {outDir name content : Str} (h1 : name ≠ [])
    (h2 : name.contains '/' = false)
    (hread : findVal fs.files (joinPath outDir name) = some content) :
    name ∈ listNames fs outDir := by
  refine List.mem_append_left _ (List.mem_filterMap.mpr ⟨joinPath outDir name, ?_,
    relName_joinPath h1 h2⟩)
  exact List.mem_map.mpr ⟨(joinPath outDir name, content), findVal_mem hread, rfl⟩

theorem idxHas_dictInsert (idx : Idx) (k v h : Str) :
    idxHas (dictInsert idx k v) h = true ↔ idxHas idx h = true ∨ h = k := by
  unfold dictInsert idxHas
  split
  · next hk =>
    rw [show (fun e : Str × Str => if e.1 = k then (e.1, v) else e) =
      (fun e : Str × Str => if e.1 = k then (e.1, (fun _ => v) e.2) else e) from rfl]
    rw [findVal_update (fun _ => v) k idx h]
    by_cases hhk : h = k
    · rw [if_pos hhk]
      subst hhk
      rcases Option.isSome_iff_exists.mp hk with ⟨c, hc⟩
      rw [hc]
      simp
    · rw [if_neg hhk]
      simp [hhk]
  · next hk =>
    by_cases hhk : h = k
    · subst hhk
      rw [findVal_append_new (Option.not_isSome_iff_eq_none.mp hk)]
      simp
    · rw [findVal_append_singleton_ne hhk]
      simp [hhk]

theorem idxHas_foldInsert_mono (hs : List Str) (name : Str) :
    ∀ idx h, idxHas idx h = true →
      idxHas (hs.foldl (fun i h2 => dictInsert i h2 name) idx) h = true := by
  induction hs with
  | nil => intro idx h hh; simpa using hh
  | cons a r ih =>
    intro idx h hh
    rw [List.foldl_cons]
    exact ih _ h ((idxHas_dictInsert idx a name h).mpr (Or.inl hh))

theorem idxHas_foldInsert_mem (hs : List Str) (name : Str) :
    ∀ idx h, h ∈ hs →
      idxHas (hs.foldl (fun i h2 => dictInsert i h2 name) idx) h = true := by
  induction hs with
  | nil => intro idx h hh; cases hh
  | cons a r ih =>
    intro idx h hh
    rw [List.foldl_cons]
    rcases List.mem_cons.mp hh with rfl | hh2
    · exact idxHas_foldInsert_mono r name _ h
        ((idxHas_dictInsert idx h name h).mpr (Or.inr rfl))
    · exact ih _ h hh2

theorem idxHas_foldInsert_sound (hs : List Str) (name : Str) :
    ∀ idx h, idxHas (hs.foldl (fun i h2 => dictInsert i h2 name) idx) h = true →
      idxHas idx h = true ∨ h ∈ hs := by
  induction hs with
  | nil => intro idx h hh; exact Or.inl (by simpa using hh)
  | cons a r ih =>
    intro idx h hh
    rw [List.foldl_cons] at hh
    rcases ih _ h hh with h2 | h2
    · rcases (idxHas_dictInsert idx a name h).mp h2 with h3 | h3
      · exact Or.inl h3
      · exact Or.inr (by simp [h3])
    · exact Or.inr (List.mem_cons_of_mem _ h2)

theorem scanStep_mono (failR : Str → Bool) (fs : FS) (outDir : Str) (idx : Idx)
    (name h : Str) (hh : idxHas idx h = true) :
    idxHas (scanStep failR fs outDir idx name) h = true := by
  unfold scanStep
  split
  · split
    · exact idxHas_foldInsert_mono _ _ _ _ hh
    · exact hh
  · exact hh

theorem scanFold_mono (failR : Str → Bool) (fs : FS) (outDir : Str) (names : List Str) :
    ∀ idx h, idxHas idx h = true →
      idxHas (names.foldl (scanStep failR fs outDir) idx) h = true := by
  induction names with
  | nil => intro idx h hh; simpa using hh
  | cons a r ih =>
    intro idx h hh
    rw [List.foldl_cons]
    exact ih _ h (scanStep_mono failR fs outDir idx a h hh)

theorem scan_complete {fs : FS} {outputDir name content h : Str}
    (hdir : outputDir ∈ fs.dirs) (hname : rootName name)
    (hread : findVal fs.files (joinPath outputDir name) = some content)
    (hh : h ∈ extractHashes content) :
    idxHas (scan_existing_hashes noFail fs outputDir) h = true := by
  unfold scan_existing_hashes
  rw [if_pos hdir]
  have hmem : name ∈ listNames fs outputDir :=
    mem_listNames_of_file hname.1 hname.2.1 hread
  -- fold over the name list: once the matching name is processed the
  -- hash is present, and later steps preserve it
  have main : ∀ (names : List Str) idx, name ∈ names →
      idxHas (names.foldl (scanStep noFail fs outputDir) idx) h = true := by
    intro names
    induction names with
    | nil => intro idx hn; cases hn
    | cons a r ih =>
      intro idx hn
      rw [List.foldl_cons]
      rcases List.mem_cons.mp hn with rfl | hn2
      · refine scanFold_mono noFail fs outputDir r _ h ?_
        unfold scanStep
        rw [if_pos hname.2.2]
        simp only [noFail, Bool.false_eq_true, if_false, FS.read]
        rw [hread]
        exact idxHas_foldInsert_mem _ _ _ _ hh
      · exact ih _ hn2
  exact main _ [] hmem

theorem scan_sound {failR : Str → Bool} {fs : FS} {outputDir h : Str}
    (hi : idxHas (scan_existing_hashes failR fs outputDir) h = true) :
    outputDir ∈ fs.dirs ∧ ∃ name content,
      name ≠ [] ∧ name.contains '/' = false ∧ (".md".data).isSuffixOf name = true ∧
      findVal fs.files (joinPath outputDir name) = some content ∧
      h ∈ extractHashes content := by
  unfold scan_existing_hashes at hi
  split at hi
  · next hdir =>
    refine ⟨hdir, ?_⟩
    have main : ∀ (names : List Str) idx,
        idxHas (names.foldl (scanStep failR fs outputDir) idx) h = true →
        idxHas idx h = true ∨ ∃ name ∈ names,
          (".md".data).isSuffixOf name = true ∧ ∃ content,
            findVal fs.files (joinPath outputDir name) = some content ∧
            h ∈ extractHashes content := by
      intro names
      induction names with
      | nil => intro idx hh; exact Or.inl (by simpa using hh)
      | cons a r ih =>
        intro idx hh
        rw [List.foldl_cons] at hh
        rcases ih _ hh with h2 | h2
        · unfold scanStep at h2
          split at h2
          · next hmd =>
            split at h2
            · next content hco =>
              rcases idxHas_foldInsert_sound _ _ _ _ h2 with h3 | h3
              · exact Or.inl h3
              · refine Or.inr ⟨a, by simp, hmd, content, ?_, h3⟩
                split at hco
                · cases hco
                · exact hco
            · exact Or.inl h2
          · exact Or.inl h2
        · obtain ⟨name, hn, hrest⟩ := h2
          exact Or.inr ⟨name, List.mem_cons_of_mem _ hn, hrest⟩
    rcases main _ [] hi with h2 | h2
    · cases h2
    · obtain ⟨name, hn, hmd, content, hread, hh2⟩ := h2
      have hprops : name ≠ [] ∧ name.contains '/' = false := by
        unfold listNames at hn
        rcases List.mem_append.mp hn with hcase | hcase
        · obtain ⟨p, _, hp⟩ := List.mem_filterMap.mp hcase
          exact relName_props hp
        · obtain ⟨p, _, hp⟩ := List.mem_filterMap.mp hcase
          exact relName_props hp
      exact ⟨name, content, hprops.1, hprops.2, hmd, hread, hh2⟩
  · cases hi

/-! ## Paths the writers touch -/

theorem mem_pyStrip_sub {c : Char} {l : Str} (h : c ∈ pyStrip l) : c ∈ l := by
  unfold pyStrip rstrip lstrip at h
  have h1 := List.mem_reverse.mp h
  have h2 := (List.dropWhile_sublist _).mem h1
  have h3 := List.mem_reverse.mp h2
  exact (List.dropWhile_sublist _).mem h3

theorem mem_stripDots_sub {c : Char} {l : Str} (h : c ∈ stripDots l) : c ∈ l := by
  unfold stripDots at h
  have h1 := List.mem_reverse.mp h
  have h2 := (List.dropWhile_sublist _).mem h1
  have h3 := List.mem_reverse.mp h2
  exact (List.dropWhile_sublist _).mem h3

theorem mem_rsplit_sub {c : Char} {l : Str} (h : c ∈ rsplitBeforeLastSpace l) : c ∈ l := by
  unfold rsplitBeforeLastSpace at h
  split at h
  · next heq =>
    have h1 : c ∈ l.reverse.dropWhile (fun c => c ≠ ' ') := by
      rw [heq]
      exact List.mem_cons_of_mem _ (List.mem_reverse.mp h)
    exact List.mem_reverse.mp ((List.dropWhile_sublist _).mem h1)
  · exact h

theorem sanitize_no_slash (nfkd : Str → Str) (t : Str) :
    ('/' : Char) ∉ sanitize_filename nfkd t := by
  intro hmem
  simp only [sanitize_filename] at hmem
  have hc3 : ('/' : Char) ∈ stripDots (pyStrip (((nfkd t).filter
      (fun c => ¬ badFileChar c)).filter (fun c => ¬ ctrlChar c))) := by
    split at hmem
    · exact List.mem_of_mem_take (mem_rsplit_sub hmem)
    · exact hmem
  have hc2 := mem_pyStrip_sub (mem_stripDots_sub hc3)
  have hc1 := (List.mem_filter.mp ((List.mem_filter.mp hc2).1)).2
  simp [badFileChar] at hc1

theorem bookPath_rootName (nfkd : Str → Str) (title : Str) :
    rootName (sanitize_filename nfkd title ++ ".md".data) := by
  refine ⟨by simp, ?_, ?_⟩
  · rw [Bool.eq_false_iff]
    intro hc
    have := List.elem_iff.mp hc
    rcases List.mem_append.mp this with h | h
    · exact sanitize_no_slash nfkd title h
    · simp at h
  · exact List.isSuffixOf_iff_suffix.mpr (List.suffix_append _ _)

theorem aggName_rootName {name : Str} (hmd : (".md".data).isSuffixOf name = true)
    (hsl : name.contains '/' = false) : rootName name := by
  refine ⟨?_, hsl, hmd⟩
  intro hnil
  subst hnil
  have := List.isSuffixOf_iff_suffix.mp hmd
  simp at this

theorem joinPath_inj {outDir a b : Str} (h : joinPath outDir a = joinPath outDir b) :
    a = b := by
  unfold joinPath at h
  have := List.append_cancel_left h
  injection this

theorem importLogPath_expand (outputDir : Str) (cfg : Config) (now : Now) :
    importLogPath outputDir cfg now =
      joinPath outputDir (cfg.importLogFolder ++ '/' :: importLogName now) := by
  unfold importLogPath importLogDir joinPath
  rw [List.append_assoc]
  rfl

theorem root_ne_importLogPath {outputDir name : Str} {cfg : Config} {now : Now}
    (hsl : name.contains '/' = false) :
    joinPath outputDir name ≠ importLogPath outputDir cfg now := by
  intro h
  rw [importLogPath_expand] at h
  have hn := joinPath_inj h
  have hmem : ('/' : Char) ∈ name := by
    rw [hn]
    exact List.mem_append_right _ (List.mem_cons_self _ _)
  rw [Bool.eq_false_iff] at hsl
  exact hsl (List.elem_iff.mpr hmem)

/-! ## Marker preservation and establishment -/

theorem rootMarker_extends {fs fs2 : FS} {outDir h : Str}
    (hext : extendsFiles fs fs2) (hm : rootMarker fs outDir h) :
    rootMarker fs2 outDir h := by
  obtain ⟨name, content, hname, hread, hh⟩ := hm
  obtain ⟨d, hd⟩ := hext _ _ hread
  exact ⟨name, content ++ d, hname, hd, extractHashes_append hh d⟩

theorem rootMarker_extendsExcept {fs fs2 : FS} {outDir h : Str} {cfg : Config} {now : Now}
    (hext : extendsExcept (importLogPath outDir cfg now) fs fs2)
    (hm : rootMarker fs outDir h) : rootMarker fs2 outDir h := by
  obtain ⟨name, content, hname, hread, hh⟩ := hm
  obtain ⟨d, hd⟩ := hext _ _ (root_ne_importLogPath hname.2.1) hread
  exact ⟨name, content ++ d, hname, hd, extractHashes_append hh d⟩

theorem extendsFiles_bkFS (nfkd : Str → Str) (outputDir : Str) (existing : Idx)
    (cfg : Config) (book : Book) (fs : FS) :
    extendsFiles fs (bkFS nfkd outputDir existing cfg book fs) := by
  unfold bkFS
  split
  · exact extendsFiles_refl fs
  · split
    · exact extendsFiles_trans (extendsFiles_mkdirs fs outputDir)
        (extendsFiles_appendFile _ _ _)
    · exact extendsFiles_trans (extendsFiles_mkdirs fs outputDir) extendsFiles_createFile

theorem extendsFiles_regFoldFS (nfkd : Str → Str) (outputDir : Str) (existing : Idx)
    (cfg : Config) (bs : List (Str × Book)) :
    ∀ fs, extendsFiles fs (regFoldFS nfkd outputDir existing cfg bs fs) := by
  induction bs with
  | nil => intro fs; exact extendsFiles_refl fs
  | cons kb rest ih =>
    intro fs
    rw [regFoldFS]
    exact extendsFiles_trans (extendsFiles_bkFS nfkd outputDir existing cfg kb.2 fs) (ih _)

theorem extendsFiles_shortFS (outputDir : Str) (existing : Idx) (cfg : Config)
    (shortBooks : List Book) (fs : FS) :
    extendsFiles fs (shortFS outputDir existing cfg shortBooks fs) := by
  unfold shortFS
  split
  · exact extendsFiles_refl fs
  · split
    · exact extendsFiles_trans (extendsFiles_mkdirs fs outputDir)
        (extendsFiles_appendFile _ _ _)
    · exact extendsFiles_trans (extendsFiles_mkdirs fs outputDir) extendsFiles_createFile

theorem extendsExcept_ilFS (outputDir : Str) (cfg : Config) (now : Now)
    (gs : List NewGroup) (fs : FS) :
    extendsExcept (importLogPath outputDir cfg now) fs (ilFS outputDir cfg now gs fs) := by
  unfold ilFS
  split
  · exact extendsFiles_imp_except (extendsFiles_refl fs)
  · exact extendsExcept_trans
      (extendsFiles_imp_except (extendsFiles_mkdirs fs (importLogDir outputDir cfg)))
      (extendsExcept_truncWrite _ _ _)

theorem env_extendsExcept (e : Env) :
    extendsExcept (importLogPath e.outputDir e.cfg e.now) e.fs0 e.fs3 := by
  have h01 : extendsFiles e.fs0 e.fs1 :=
    extendsFiles_regFoldFS e.nfkd e.outputDir e.idx e.cfg e.sortedReg e.fs0
  have h12 : extendsFiles e.fs1 e.fs2 := by
    unfold Env.fs2
    split
    · exact extendsFiles_refl e.fs1
    · exact extendsFiles_shortFS e.outputDir e.idx e.cfg e.shorts e.fs1
  have h23 : extendsExcept (importLogPath e.outputDir e.cfg e.now) e.fs2 e.fs3 := by
    unfold Env.fs3
    split
    · exact extendsExcept_ilFS e.outputDir e.cfg e.now e.groupsAll e.fs2
    · exact extendsFiles_imp_except (extendsFiles_refl e.fs2)
  exact extendsExcept_trans (extendsFiles_imp_except (extendsFiles_trans h01 h12)) h23

/-! ## Claim C6: append-or-create discipline -/

def c6Input : Str :=
  ("T (A)\n- Your Highlight | Location 1 | Added on D\n\nBody\n==========").data

def c6Cfg : Config :=
  ⟨3, "Short Notes.md".data, "books".data, "short-notes".data, "Import Logs".data,
   true, true, true⟩

def c6Now : Now := ⟨"X".data, "Y".data, "Z".data⟩

def c6LogPath : Str := "out/Import Logs/Import X.md".data

def c6FS0 : FS := ⟨[], [(c6LogPath, "OLD".data)]⟩

/--
Counterexample to C6 as stated: the import log is opened with mode `w`,
so a pre-existing file at the run's import-log path is truncated — its
prior bytes are not a prefix of its resulting content.
-/
theorem C6_counterexample :
    c6FS0.read c6LogPath = some "OLD".data ∧
    ((sync_highlights id noFail noFail (fun _ => none) (some c6Input) "out".data c6Cfg
        false c6Now c6FS0).toOption.bind (fun r => r.2.1.read c6LogPath)).map
      (fun c2 => ("OLD".data).isPrefixOf c2) = some false := by
  exact ⟨rfl, by decide⟩

/--
Claim C6 amended: every pre-existing file other than the run's own
timestamped import-log path keeps its prior byte content as an exact
prefix of its resulting content — book and aggregate writers only
create new files or append; only the import log (mode `w`) can rewrite
existing bytes, at its single timestamped path.
-/
theorem C6_append_or_create (e : Env) (p c : Str)
    (hp : p ≠ importLogPath e.outputDir e.cfg e.now)
    (hread : e.fs0.read p = some c) :
    ∃ d, e.fs3.read p = some (c ++ d) :=
  env_extendsExcept e p c hp hread

def c6Env : Env :=
  { nfkd := id, parseDate := fun _ => none, failR := noFail, content := [],
    outputDir := "out".data, cfg := c6Cfg, now := c6Now,
    fs0 := ⟨[], [("x".data, "OLD".data)]⟩ }

/-- Witness for C6: a pre-existing file off the import-log path keeps
its bytes as a prefix across a run. -/
theorem C6_append_or_create_witness :
    ("x".data ≠ importLogPath c6Env.outputDir c6Env.cfg c6Env.now) ∧
    c6Env.fs0.read "x".data = some "OLD".data ∧
    ∃ d, c6Env.fs3.read "x".data = some ("OLD".data ++ d) :=
  ⟨by decide, by decide,
   C6_append_or_create c6Env "x".data "OLD".data (by decide) (by decide)⟩

/-! ## Every parsed identity is an 8-character hex digest -/

theorem generate_hash_hashOk (s : Str) : hashOk (generate_hash s) :=
  ⟨generate_hash_length s, fun _ hc => mem_generate_hash_isHex hc⟩

theorem parseSegment_hashOk {pd : Str → Option Nat} {raw t a : Str} {clip : Clip}
    (h : parseSegment pd raw = some (t, a, clip)) : hashOk clip.hash := by
  simp only [parseSegment, Option.bind_eq_bind] at h
  split at h
  · cases h
  · cases h1 : firstNonBlank (splitChar '\n' (pyStrip raw)) with
    | none => rw [h1] at h; cases h
    | some p1 =>
      rw [h1] at h
      obtain ⟨titleLine, rest1⟩ := p1
      simp only [Option.some_bind] at h
      cases h2 : firstNonBlank rest1 with
      | none => rw [h2] at h; cases h
      | some p2 =>
        rw [h2] at h
        obtain ⟨infoLine, rest2⟩ := p2
        simp only [Option.some_bind] at h
        cases h3 : matchInfo infoLine with
        | none => rw [h3] at h; cases h
        | some q =>
          rw [h3] at h
          obtain ⟨ctype, page, loc, dateStr⟩ := q
          simp only [Option.some_bind] at h
          split at h
          · cases h
          · split at h
            · cases h
            · split at h
              · cases h
              · simp only [Option.pure_def, Option.some.injEq, Prod.mk.injEq] at h
                rw [← h.2.2]
                exact generate_hash_hashOk _

theorem insertClip_clips {t a : Str} {clip : Clip} :
    ∀ {acc : List (Str × Book)} {kb : Str × Book}, kb ∈ insertClip acc t a clip →
    ∀ c ∈ kb.2.clippings, (∃ kb0 ∈ acc, c ∈ kb0.2.clippings) ∨ c = clip := by
  intro acc
  induction acc with
  | nil =>
    intro kb hkb c hc
    simp only [insertClip, List.mem_singleton] at hkb
    subst hkb
    right
    simpa using hc
  | cons e rest ih =>
    intro kb hkb c hc
    obtain ⟨k, b⟩ := e
    simp only [insertClip] at hkb
    split at hkb
    · next hk =>
      rcases List.mem_cons.mp hkb with rfl | hkb2
      · rcases List.mem_append.mp hc with hc1 | hc1
        · exact Or.inl ⟨(k, b), List.mem_cons_self _ _, hc1⟩
        · right
          simpa using hc1
      · exact Or.inl ⟨kb, List.mem_cons_of_mem _ hkb2, hc⟩
    · rcases List.mem_cons.mp hkb with rfl | hkb2
      · exact Or.inl ⟨(k, b), List.mem_cons_self _ _, hc⟩
      · rcases ih hkb2 c hc with ⟨kb0, hkb0, hc0⟩ | hc1
        · exact Or.inl ⟨kb0, List.mem_cons_of_mem _ hkb0, hc0⟩
        · exact Or.inr hc1

theorem parseFold_hashOk {pd : Str → Option Nat} :
    ∀ (raws : List Str) (acc : List (Str × Book)),
      (∀ kb ∈ acc, ∀ c ∈ (kb : Str × Book).2.clippings, hashOk c.hash) →
      ∀ kb ∈ raws.foldl (fun acc raw =>
          match parseSegment pd raw with
          | none => acc
          | some (t, a, clip) => insertClip acc t a clip) acc,
        ∀ c ∈ (kb : Str × Book).2.clippings, hashOk c.hash := by
  intro raws
  induction raws with
  | nil => intro acc hacc kb hkb; exact hacc kb hkb
  | cons r rest ih =>
    intro acc hacc kb hkb
    rw [List.foldl_cons] at hkb
    refine ih _ ?_ kb hkb
    intro kb2 hkb2 c hc
    simp only [] at hkb2
    cases hps : parseSegment pd r with
    | none =>
      rw [hps] at hkb2
      exact hacc kb2 hkb2 c hc
    | some v =>
      obtain ⟨t2, a2, clip2⟩ := v
      rw [hps] at hkb2
      rcases insertClip_clips hkb2 c hc with ⟨kb0, hkb0, hc0⟩ | hcc
      · exact hacc kb0 hkb0 c hc0
      · rw [hcc]
        exact parseSegment_hashOk hps

theorem parse_clippings_hashOk {pd : Str → Option Nat} {content : Str} {kb : Str × Book}
    (hkb : kb ∈ parse_clippings pd content) :
    ∀ c ∈ kb.2.clippings, hashOk c.hash := by
  intro c hc
  exact parseFold_hashOk _ [] (fun kb2 h => absurd h (List.not_mem_nil _)) kb hkb c hc

/-- Every top-level item of the linker carries a clipping from the
input list. -/
theorem link_clip_mem {cl : List Clip} {i : Item}
    (hi : i ∈ link_notes_to_highlights cl) : i.clip ∈ cl := by
  simp only [link_notes_to_highlights] at hi
  have h1 := mem_pySort.mp hi
  rcases List.mem_append.mp h1 with h2 | h2
  · obtain ⟨hl, hh, rfl⟩ := List.mem_map.mp h2
    have h3 := mem_pySort.mp hh
    exact (List.mem_filter.mp h3).1
  · obtain ⟨n, hn, rfl⟩ := List.mem_map.mp h2
    have h3 := List.mem_filter.mp hn
    have h4 := dedup_subset h3.1
    exact (List.mem_filter.mp h4).1

/-! ## Coverage lemmas for the filtering pass -/

theorem filterNewItems_cover {existing : Idx} {clippings : List Item} {i : Item}
    (hi : i ∈ clippings) (hnew : idxHas existing i.clip.hash = false) :
    ∃ j ∈ filterNewItems existing clippings, j.clip = i.clip := by
  refine ⟨({ i with notes := i.notes.filter (fun n => ¬ idxHas existing n.hash) } : Item),
    ?_, rfl⟩
  refine List.mem_filter.mpr ⟨List.mem_map.mpr ⟨i, hi, rfl⟩, ?_⟩
  simp [hnew]

theorem filterNewItems_eq_nil {existing : Idx} {clippings : List Item}
    (h : ∀ i ∈ clippings, idxHas existing i.clip.hash = true) :
    filterNewItems existing clippings = [] := by
  unfold filterNewItems
  rw [List.filter_eq_nil_iff]
  intro j hj
  obtain ⟨i, hi, rfl⟩ := List.mem_map.mp hj
  simp [h i hi]

/-! ## Markers established by the live writers -/

theorem mkdirs_files (fs : FS) (d : Str) : (fs.mkdirs d).files = fs.files := by
  unfold FS.mkdirs
  split <;> rfl

theorem read_createFile {fs : FS} {p : Str} (c : Str) (h : findVal fs.files p = none) :
    findVal (fs.createFile p c).files p = some c :=
  findVal_append_new h

theorem marker_mem_clipBlocks {items : List Item} {i : Item} (hi : i ∈ items) :
    markerStr i.clip.hash ∈ items.flatMap clipBlock := by
  refine List.mem_flatMap.mpr ⟨i, hi, ?_⟩
  simp [clipBlock]

theorem marker_mem_bookLines {cfg : Config} {existing : Idx} {book : Book} {fe : Bool}
    {i : Item} (hi : i ∈ shortNew existing book) :
    markerStr i.clip.hash ∈ bookLines cfg existing book fe := by
  unfold bookLines
  exact List.mem_append_left _ (List.mem_append_right _ (marker_mem_clipBlocks hi))

theorem marker_mem_shortSection {existing : Idx} {book : Book} {i : Item}
    (hi : i ∈ shortNew existing book) :
    markerStr i.clip.hash ∈ shortSection existing book := by
  unfold shortSection
  rw [if_neg (List.ne_nil_of_mem hi)]
  exact List.mem_append_left _ (List.mem_append_right _ (marker_mem_clipBlocks hi))

theorem marker_mem_shortLines {existing : Idx} {cfg : Config} {shortBooks : List Book}
    {fe : Bool} {b : Book} {i : Item} (hb : b ∈ shortBooks) (hi : i ∈ shortNew existing b) :
    markerStr i.clip.hash ∈ shortLines existing cfg shortBooks fe := by
  unfold shortLines
  exact List.mem_append_right _
    (List.mem_flatMap.mpr ⟨b, hb, marker_mem_shortSection hi⟩)

theorem hash_mem_extract_of_line {h : Str} {lines : List Str} (hh : hashOk h)
    (hl : markerStr h ∈ lines) (pre suf : Str) :
    h ∈ extractHashes (pre ++ joinNL lines ++ suf) := by
  obtain ⟨x, y, hxy⟩ := joinNL_mem_substring hl
  rw [hxy]
  have heq : pre ++ (x ++ (markerStr h ++ y)) ++ suf =
      (pre ++ x) ++ (markerStr h ++ (y ++ suf)) := by
    simp [List.append_assoc]
  rw [heq]
  exact mem_extractHashes_marker hh (pre ++ x) (y ++ suf)

theorem bkFS_rootMarker {nfkd : Str → Str} {outputDir : Str} {existing : Idx}
    {cfg : Config} {book : Book} {fs : FS} {i : Item}
    (hi : i ∈ shortNew existing book) (hh : hashOk i.clip.hash) :
    rootMarker (bkFS nfkd outputDir existing cfg book fs) outputDir i.clip.hash := by
  have hne : shortNew existing book ≠ [] := List.ne_nil_of_mem hi
  unfold bkFS
  rw [if_neg hne]
  by_cases hex : fs.isFile (bookPath nfkd outputDir book) = true
  · rw [if_pos hex]
    obtain ⟨old, hold⟩ := Option.isSome_iff_exists.mp
      (show (fs.read (bookPath nfkd outputDir book)).isSome = true from hex)
    have hold2 : findVal fs.files (bookPath nfkd outputDir book) = some old := hold
    refine ⟨sanitize_filename nfkd book.title ++ ".md".data,
      old ++ ('\n' :: joinNL (bookLines cfg existing book true)),
      bookPath_rootName nfkd book.title, ?_, ?_⟩
    · show findVal ((fs.mkdirs outputDir).appendFile (bookPath nfkd outputDir book)
          ('\n' :: joinNL (bookLines cfg existing book true))).files
        (bookPath nfkd outputDir book) =
        some (old ++ ('\n' :: joinNL (bookLines cfg existing book true)))
      rw [read_appendFile, if_pos rfl, mkdirs_files, hold2]
      rfl
    · have heq : old ++ ('\n' :: joinNL (bookLines cfg existing book true)) =
          (old ++ ['\n']) ++ joinNL (bookLines cfg existing book true) ++ [] := by
        simp
      rw [heq]
      exact hash_mem_extract_of_line hh (marker_mem_bookLines hi) (old ++ ['\n']) []
  · rw [if_neg hex]
    refine ⟨sanitize_filename nfkd book.title ++ ".md".data,
      joinNL (bookLines cfg existing book false),
      bookPath_rootName nfkd book.title, ?_, ?_⟩
    · show findVal ((fs.mkdirs outputDir).createFile (bookPath nfkd outputDir book)
          (joinNL (bookLines cfg existing book false))).files
        (bookPath nfkd outputDir book) = some (joinNL (bookLines cfg existing book false))
      refine read_createFile _ ?_
      rw [mkdirs_files]
      exact Option.not_isSome_iff_eq_none.mp hex
    · have heq : joinNL (bookLines cfg existing book false) =
          [] ++ joinNL (bookLines cfg existing book false) ++ [] := by
        simp
      rw [heq]
      exact hash_mem_extract_of_line hh (marker_mem_bookLines hi) [] []

theorem shortFS_rootMarker {outputDir : Str} {existing : Idx} {cfg : Config}
    {shortBooks : List Book} {fs : FS} {b : Book} {i : Item}
    (hroot : rootName cfg.shortNotesFilename) (hb : b ∈ shortBooks)
    (hi : i ∈ shortNew existing b) (hh : hashOk i.clip.hash) :
    rootMarker (shortFS outputDir existing cfg shortBooks fs) outputDir i.clip.hash := by
  have hlne : shortLines existing cfg shortBooks (fs.isFile (aggPath outputDir cfg)) ≠ [] := by
    intro h0
    exact List.ne_nil_of_mem hi (shortLines_nil_all h0 b hb)
  unfold shortFS
  rw [if_neg hlne]
  by_cases hex : fs.isFile (aggPath outputDir cfg) = true
  · rw [if_pos hex]
    obtain ⟨old, hold⟩ := Option.isSome_iff_exists.mp
      (show (fs.read (aggPath outputDir cfg)).isSome = true from hex)
    have hold2 : findVal fs.files (aggPath outputDir cfg) = some old := hold
    refine ⟨cfg.shortNotesFilename,
      old ++ ('\n' :: joinNL (shortLines existing cfg shortBooks true)), hroot, ?_, ?_⟩
    · show findVal ((fs.mkdirs outputDir).appendFile (aggPath outputDir cfg)
          ('\n' :: joinNL (shortLines existing cfg shortBooks true))).files
        (aggPath outputDir cfg) =
        some (old ++ ('\n' :: joinNL (shortLines existing cfg shortBooks true)))
      rw [read_appendFile, if_pos rfl, mkdirs_files, hold2]
      rfl
    · have heq : old ++ ('\n' :: joinNL (shortLines existing cfg shortBooks true)) =
          (old ++ ['\n']) ++ joinNL (shortLines existing cfg shortBooks true) ++ [] := by
        simp
      rw [heq]
      exact hash_mem_extract_of_line hh (marker_mem_shortLines hb hi) (old ++ ['\n']) []
  · rw [if_neg hex]
    refine ⟨cfg.shortNotesFilename,
      joinNL (shortLines existing cfg shortBooks false), hroot, ?_, ?_⟩
    · show findVal ((fs.mkdirs outputDir).createFile (aggPath outputDir cfg)
          (joinNL (shortLines existing cfg shortBooks false))).files
        (aggPath outputDir cfg) = some (joinNL (shortLines existing cfg shortBooks false))
      refine read_createFile _ ?_
      rw [mkdirs_files]
      exact Option.not_isSome_iff_eq_none.mp hex
    · have heq : joinNL (shortLines existing cfg shortBooks false) =
          [] ++ joinNL (shortLines existing cfg shortBooks false) ++ [] := by
        simp
      rw [heq]
      exact hash_mem_extract_of_line hh (marker_mem_shortLines hb hi) [] []

theorem regFoldFS_rootMarker {nfkd : Str → Str} {outputDir : Str} {existing : Idx}
    {cfg : Config} :
    ∀ {bs : List (Str × Book)} {fs : FS} {kb : Str × Book} {i : Item},
      kb ∈ bs → i ∈ shortNew existing kb.2 → hashOk i.clip.hash →
      rootMarker (regFoldFS nfkd outputDir existing cfg bs fs) outputDir i.clip.hash := by
  intro bs
  induction bs with
  | nil => intro fs kb i hkb; cases hkb
  | cons a rest ih =>
    intro fs kb i hkb hi hh
    rw [regFoldFS]
    rcases List.mem_cons.mp hkb with rfl | hkb2
    · exact rootMarker_extends
        (extendsFiles_regFoldFS nfkd outputDir existing cfg rest _)
        (bkFS_rootMarker hi hh)
    · exact ih hkb2 hi hh

/-! ## Directory growth across a run -/

theorem mkdirs_dirs_sub (fs : FS) (d : Str) : fs.dirs ⊆ (fs.mkdirs d).dirs := by
  unfold FS.mkdirs
  split
  · exact fun x hx => hx
  · exact fun x hx => List.mem_append_left _ hx

theorem mkdirs_dirs_mem (fs : FS) (d : Str) : d ∈ (fs.mkdirs d).dirs := by
  unfold FS.mkdirs
  split
  · next hd => exact hd
  · exact List.mem_append_right _ (List.mem_singleton.mpr rfl)

theorem appendFile_dirs (fs : FS) (p c : Str) : (fs.appendFile p c).dirs = fs.dirs := rfl

theorem createFile_dirs (fs : FS) (p c : Str) : (fs.createFile p c).dirs = fs.dirs := rfl

theorem truncWrite_dirs (fs : FS) (p c : Str) : (fs.truncWrite p c).dirs = fs.dirs := by
  unfold FS.truncWrite FS.createFile
  split <;> rfl

theorem bkFS_dirs_sub {nfkd : Str → Str} {outputDir : Str} {existing : Idx}
    {cfg : Config} {book : Book} {fs : FS} :
    fs.dirs ⊆ (bkFS nfkd outputDir existing cfg book fs).dirs := by
  unfold bkFS
  split
  · exact fun x hx => hx
  · split
    · rw [appendFile_dirs]
      exact mkdirs_dirs_sub fs outputDir
    · rw [createFile_dirs]
      exact mkdirs_dirs_sub fs outputDir

theorem bkFS_outputDir_mem {nfkd : Str → Str} {outputDir : Str} {existing : Idx}
    {cfg : Config} {book : Book} {fs : FS} (hne : shortNew existing book ≠ []) :
    outputDir ∈ (bkFS nfkd outputDir existing cfg book fs).dirs := by
  unfold bkFS
  rw [if_neg hne]
  split
  · rw [appendFile_dirs]
    exact mkdirs_dirs_mem fs outputDir
  · rw [createFile_dirs]
    exact mkdirs_dirs_mem fs outputDir

theorem regFoldFS_dirs_sub {nfkd : Str → Str} {outputDir : Str} {existing : Idx}
    {cfg : Config} :
    ∀ (bs : List (Str × Book)) (fs : FS),
      fs.dirs ⊆ (regFoldFS nfkd outputDir existing cfg bs fs).dirs := by
  intro bs
  induction bs with
  | nil => intro fs; exact fun x hx => hx
  | cons kb rest ih =>
    intro fs
    rw [regFoldFS]
    exact fun x hx => ih _ (bkFS_dirs_sub hx)

theorem regFoldFS_outputDir_mem {nfkd : Str → Str} {outputDir : Str} {existing : Idx}
    {cfg : Config} :
    ∀ {bs : List (Str × Book)} {fs : FS} {kb : Str × Book},
      kb ∈ bs → shortNew existing kb.2 ≠ [] →
      outputDir ∈ (regFoldFS nfkd outputDir existing cfg bs fs).dirs := by
  intro bs
  induction bs with
  | nil => intro fs kb hkb; cases hkb
  | cons a rest ih =>
    intro fs kb hkb hne
    rw [regFoldFS]
    rcases List.mem_cons.mp hkb with rfl | hkb2
    · exact regFoldFS_dirs_sub rest _ (bkFS_outputDir_mem hne)
    · exact ih hkb2 hne

theorem shortFS_dirs_sub {outputDir : Str} {existing : Idx} {cfg : Config}
    {shortBooks : List Book} {fs : FS} :
    fs.dirs ⊆ (shortFS outputDir existing cfg shortBooks fs).dirs := by
  unfold shortFS
  split
  · exact fun x hx => hx
  · split
    · rw [appendFile_dirs]
      exact mkdirs_dirs_sub fs outputDir
    · rw [createFile_dirs]
      exact mkdirs_dirs_sub fs outputDir

theorem shortFS_outputDir_mem {outputDir : Str} {existing : Idx} {cfg : Config}
    {shortBooks : List Book} {fs : FS}
    (hlne : shortLines existing cfg shortBooks (fs.isFile (aggPath outputDir cfg)) ≠ []) :
    outputDir ∈ (shortFS outputDir existing cfg shortBooks fs).dirs := by
  unfold shortFS
  rw [if_neg hlne]
  split
  · rw [appendFile_dirs]
    exact mkdirs_dirs_mem fs outputDir
  · rw [createFile_dirs]
    exact mkdirs_dirs_mem fs outputDir

theorem ilFS_dirs_sub {outputDir : Str} {cfg : Config} {now : Now} {gs : List NewGroup}
    {fs : FS} : fs.dirs ⊆ (ilFS outputDir cfg now gs fs).dirs := by
  unfold ilFS
  split
  · exact fun x hx => hx
  · rw [truncWrite_dirs]
    exact mkdirs_dirs_sub fs (importLogDir outputDir cfg)

theorem env_dirs_fs1 (e : Env) : e.fs0.dirs ⊆ e.fs1.dirs :=
  regFoldFS_dirs_sub e.sortedReg e.fs0

theorem env_dirs_fs2 (e : Env) : e.fs1.dirs ⊆ e.fs2.dirs := by
  unfold Env.fs2
  split
  · exact fun x hx => hx
  · exact shortFS_dirs_sub

theorem env_dirs_fs3 (e : Env) : e.fs2.dirs ⊆ e.fs3.dirs := by
  unfold Env.fs3
  split
  · exact ilFS_dirs_sub
  · exact fun x hx => hx

theorem env_dirs_sub (e : Env) : e.fs0.dirs ⊆ e.fs3.dirs :=
  fun x hx => env_dirs_fs3 e (env_dirs_fs2 e (env_dirs_fs1 e hx))

theorem env_rootMarker_fs2 (e : Env) {h : Str}
    (hm : rootMarker e.fs1 e.outputDir h) : rootMarker e.fs2 e.outputDir h := by
  unfold Env.fs2
  split
  · exact hm
  · exact rootMarker_extends
      (extendsFiles_shortFS e.outputDir e.idx e.cfg e.shorts e.fs1) hm

theorem env_rootMarker_fs3 (e : Env) {h : Str}
    (hm : rootMarker e.fs2 e.outputDir h) : rootMarker e.fs3 e.outputDir h := by
  unfold Env.fs3
  split
  · exact rootMarker_extendsExcept
      (extendsExcept_ilFS e.outputDir e.cfg e.now e.groupsAll e.fs2) hm
  · exact hm

/-! ## A second scan recognises every identity of the first run -/

theorem run2_covered (e : Env)
    (hmd : (".md".data).isSuffixOf e.cfg.shortNotesFilename = true)
    (hsl : e.cfg.shortNotesFilename.contains '/' = false) :
    ∀ kb ∈ e.books, ∀ i ∈ link_notes_to_highlights (kb : Str × Book).2.clippings,
      idxHas (scan_existing_hashes noFail e.fs3 e.outputDir) i.clip.hash = true := by
  intro kb hkb i hi
  have hhok : hashOk i.clip.hash := parse_clippings_hashOk hkb i.clip (link_clip_mem hi)
  by_cases hold : idxHas e.idx i.clip.hash = true
  · obtain ⟨hdir0, name, content, hne, hns, hmdn, hread, hashmem⟩ := scan_sound hold
    obtain ⟨d, hd⟩ := env_extendsExcept e _ content (root_ne_importLogPath hns) hread
    exact scan_complete (env_dirs_sub e hdir0) ⟨hne, hns, hmdn⟩ hd
      (extractHashes_append hashmem d)
  · have hold2 : idxHas e.idx i.clip.hash = false := Bool.eq_false_iff.mpr hold
    obtain ⟨j, hj, hjc⟩ := filterNewItems_cover hi hold2
    have hhokj : hashOk j.clip.hash := by
      rw [hjc]
      exact hhok
    by_cases hreg : decide (e.cfg.minHighlights ≤ hlCount kb.2) = true
    · have hkbs : kb ∈ e.sortedReg := mem_pySort.mpr (List.mem_filter.mpr ⟨hkb, hreg⟩)
      have hm1 : rootMarker e.fs1 e.outputDir j.clip.hash :=
        regFoldFS_rootMarker hkbs hj hhokj
      obtain ⟨name, content, hname, hread, hashmem⟩ :=
        env_rootMarker_fs3 e (env_rootMarker_fs2 e hm1)
      have hdir : e.outputDir ∈ e.fs3.dirs := by
        refine env_dirs_fs3 e (env_dirs_fs2 e ?_)
        exact regFoldFS_outputDir_mem hkbs (List.ne_nil_of_mem hj)
      have hres := scan_complete hdir hname hread hashmem
      rw [hjc] at hres
      exact hres
    · have hregf : decide (e.cfg.minHighlights ≤ hlCount kb.2) = false :=
        Bool.eq_false_iff.mpr hreg
      have hbshort : kb.2 ∈ e.shorts := by
        refine List.mem_map.mpr ⟨kb, List.mem_filter.mpr ⟨hkb, ?_⟩, rfl⟩
        simp [hregf]
      have hshortsne : e.shorts ≠ [] := List.ne_nil_of_mem hbshort
      have hm2 : rootMarker e.fs2 e.outputDir j.clip.hash := by
        unfold Env.fs2
        rw [if_neg hshortsne]
        exact shortFS_rootMarker (aggName_rootName hmd hsl) hbshort hj hhokj
      obtain ⟨name, content, hname, hread, hashmem⟩ := env_rootMarker_fs3 e hm2
      have hlne : shortLines e.idx e.cfg e.shorts
          (e.fs1.isFile (aggPath e.outputDir e.cfg)) ≠ [] := by
        intro h0
        exact List.ne_nil_of_mem hj (shortLines_nil_all h0 kb.2 hbshort)
      have hdir : e.outputDir ∈ e.fs3.dirs := by
        refine env_dirs_fs3 e ?_
        unfold Env.fs2
        rw [if_neg hshortsne]
        exact shortFS_outputDir_mem hlne
      have hres := scan_complete hdir hname hread hashmem
      rw [hjc] at hres
      exact hres

/-! ## The second run writes nothing -/

theorem regTotal_zero {existing : Idx} {bs : List (Str × Book)}
    (h : ∀ kb ∈ bs, shortNew existing (kb : Str × Book).2 = []) :
    regTotal existing bs = 0 := by
  rw [regTotal, List.sum_eq_zero]
  intro x hx
  obtain ⟨kb, hkb, rfl⟩ := List.mem_map.mp hx
  rw [h kb hkb]
  rfl

theorem regGroups_eq_nil {existing : Idx} {bs : List (Str × Book)}
    (h : ∀ kb ∈ bs, shortNew existing (kb : Str × Book).2 = []) :
    regGroups existing bs = [] := by
  rw [regGroups, List.filterMap_eq_nil_iff]
  intro kb hkb
  rw [if_pos (h kb hkb)]

theorem regFoldFS_id {nfkd : Str → Str} {outputDir : Str} {existing : Idx}
    {cfg : Config} :
    ∀ {bs : List (Str × Book)} {fs : FS},
      (∀ kb ∈ bs, shortNew existing (kb : Str × Book).2 = []) →
      regFoldFS nfkd outputDir existing cfg bs fs = fs := by
  intro bs
  induction bs with
  | nil => intro fs h; rfl
  | cons a rest ih =>
    intro fs h
    rw [regFoldFS]
    have hb : bkFS nfkd outputDir existing cfg a.2 fs = fs := by
      unfold bkFS
      rw [if_pos (h a (List.mem_cons_self _ _))]
    rw [hb]
    exact ih (fun kb hkb => h kb (List.mem_cons_of_mem _ hkb))

theorem shortGroups_eq_nil {existing : Idx} {shortBooks : List Book}
    (h : ∀ b ∈ shortBooks, shortNew existing b = []) :
    shortGroups existing shortBooks = [] := by
  rw [shortGroups, List.map_eq_nil_iff, List.filter_eq_nil_iff]
  intro b hb
  simp [h b hb]

theorem shortTotal_eq_zero {existing : Idx} {shortBooks : List Book}
    (h : ∀ b ∈ shortBooks, shortNew existing b = []) :
    shortTotal existing shortBooks = 0 := by
  rw [shortTotal, List.sum_eq_zero]
  intro x hx
  obtain ⟨b, hb, rfl⟩ := List.mem_map.mp hx
  rw [h b hb]
  rfl

theorem shortLines_true_eq_nil {existing : Idx} {cfg : Config} {shortBooks : List Book}
    (h : ∀ b ∈ shortBooks, shortNew existing b = []) :
    shortLines existing cfg shortBooks true = [] := by
  unfold shortLines
  rw [if_pos rfl, List.nil_append, List.flatMap_eq_nil_iff]
  intro b hb
  unfold shortSection
  rw [if_pos (h b hb)]

theorem shortFS_id {outputDir : Str} {existing : Idx} {cfg : Config}
    {shortBooks : List Book} {fs : FS}
    (hex : fs.isFile (aggPath outputDir cfg) = true)
    (h : ∀ b ∈ shortBooks, shortNew existing b = []) :
    shortFS outputDir existing cfg shortBooks fs = fs := by
  unfold shortFS
  rw [hex, shortLines_true_eq_nil h, if_pos rfl]

/-! ## The aggregate file exists after a run with short books -/

theorem shortLines_false_ne_nil (existing : Idx) (cfg : Config) (shortBooks : List Book) :
    shortLines existing cfg shortBooks false ≠ [] := by
  unfold shortLines shortFrontmatter
  simp

theorem isFile_appendFile_self {fs : FS} {p : Str} (c : Str) (h : fs.isFile p = true) :
    (fs.appendFile p c).isFile p = true := by
  obtain ⟨old, hold⟩ := Option.isSome_iff_exists.mp h
  show (findVal (fs.appendFile p c).files p).isSome = true
  rw [read_appendFile, if_pos rfl]
  rw [show findVal fs.files p = some old from hold]
  rfl

theorem isFile_createFile_self (fs : FS) (p c : Str) :
    (fs.createFile p c).isFile p = true := by
  show (findVal (fs.files ++ [(p, c)]) p).isSome = true
  cases hv : findVal fs.files p with
  | none => rw [findVal_append_new hv]; rfl
  | some v => rw [findVal_append_left hv]; rfl

theorem shortFS_agg_isFile (outputDir : Str) (existing : Idx) (cfg : Config)
    (shortBooks : List Book) (fs : FS) :
    (shortFS outputDir existing cfg shortBooks fs).isFile (aggPath outputDir cfg) = true := by
  unfold shortFS
  by_cases hex : fs.isFile (aggPath outputDir cfg) = true
  · rw [hex]
    by_cases hl : shortLines existing cfg shortBooks true = []
    · rw [hl, if_pos rfl]
      exact hex
    · rw [if_neg hl, if_pos rfl]
      have hmk : (fs.mkdirs outputDir).isFile (aggPath outputDir cfg) = true := by
        show (findVal (fs.mkdirs outputDir).files (aggPath outputDir cfg)).isSome = true
        rw [mkdirs_files]
        exact hex
      exact isFile_appendFile_self _ hmk
  · have hexf : fs.isFile (aggPath outputDir cfg) = false := Bool.eq_false_iff.mpr hex
    rw [hexf]
    rw [if_neg (shortLines_false_ne_nil existing cfg shortBooks), if_neg (by simp)]
    exact isFile_createFile_self _ _ _

theorem env_agg_isFile (e : Env) (hne : e.shorts ≠ []) :
    e.fs2.isFile (aggPath e.outputDir e.cfg) = true := by
  unfold Env.fs2
  rw [if_neg hne]
  exact shortFS_agg_isFile e.outputDir e.idx e.cfg e.shorts e.fs1

theorem isFile_extendsExcept {avoid p : Str} {fs fs2 : FS}
    (hext : extendsExcept avoid fs fs2) (hp : p ≠ avoid) (h : fs.isFile p = true) :
    fs2.isFile p = true := by
  obtain ⟨c, hc⟩ := Option.isSome_iff_exists.mp h
  obtain ⟨d, hd⟩ := hext p c hp hc
  show (findVal fs2.files p).isSome = true
  rw [hd]
  rfl

theorem env_ext23 (e : Env) :
    extendsExcept (importLogPath e.outputDir e.cfg e.now) e.fs2 e.fs3 := by
  unfold Env.fs3
  split
  · exact extendsExcept_ilFS e.outputDir e.cfg e.now e.groupsAll e.fs2
  · exact extendsFiles_imp_except (extendsFiles_refl e.fs2)

theorem env_agg_isFile_fs3 (e : Env)
    (hsl : e.cfg.shortNotesFilename.contains '/' = false) (hne : e.shorts ≠ []) :
    e.fs3.isFile (aggPath e.outputDir e.cfg) = true :=
  isFile_extendsExcept (env_ext23 e) (root_ne_importLogPath hsl) (env_agg_isFile e hne)

/-! ## Claim C1: idempotence of a repeated sync -/

def c1Input : Str :=
  ("T (A)\n- Your Highlight | Location 1 | Added on D\n\nBody\n==========").data

def c1CfgTxt : Config :=
  ⟨3, "Short Notes.txt".data, "books".data, "short-notes".data, "Import Logs".data,
   true, true, true⟩

set_option maxRecDepth 8000 in
/--
Counterexample to C1 as stated: with an aggregate short-notes filename
that does not end in `.md` the second run's scan never reads the
aggregate file, so the same highlight is counted and appended again
(1 new highlight on the second run, filesystem changed).
-/
theorem C1_counterexample :
    ((sync_highlights id noFail noFail (fun _ => none) (some c1Input) "out".data c1CfgTxt
        false ⟨"T1".data, "F1".data, "H1".data⟩ ⟨[], []⟩).toOption.bind (fun r =>
      (sync_highlights id noFail noFail (fun _ => none) (some c1Input) "out".data c1CfgTxt
        false ⟨"T2".data, "F2".data, "H2".data⟩ r.2.1).toOption.map (fun r2 =>
        (r2.1.newHighlights, decide (r2.2.1 = r.2.1))))) = some (1, false) := by
  decide

/--
Claim C1 amended: when the configured aggregate filename ends in `.md`
and contains no path separator (the defaults do), running the sync a
second time over the first run's output directory — with readable files
and a working filesystem — yields zero new highlights and leaves the
filesystem, hence every output file's byte content, exactly as the
first run left it.  Without the `.md` condition the claim fails
(`C1_counterexample`): the scan only reads `*.md` names.
-/
theorem C1_idempotence (e : Env) (now2 : Now)
    (hmd : (".md".data).isSuffixOf e.cfg.shortNotesFilename = true)
    (hsl : e.cfg.shortNotesFilename.contains '/' = false) :
    ∃ s log,
      sync_highlights e.nfkd noFail noFail e.parseDate (some e.content) e.outputDir e.cfg
        false now2 e.fs3 = .ok (s, e.fs3, log) ∧ s.newHighlights = 0 := by
  have hcov := run2_covered e hmd hsl
  set e2 : Env := { e with fs0 := e.fs3, now := now2, failR := noFail } with he2def
  have hallnil : ∀ kb ∈ e.books, shortNew e2.idx (kb : Str × Book).2 = [] := by
    intro kb hkb
    exact filterNewItems_eq_nil (fun i hi => hcov kb hkb i hi)
  have hsortnil : ∀ kb ∈ e2.sortedReg, shortNew e2.idx (kb : Str × Book).2 = [] := by
    intro kb hkb
    exact hallnil kb (List.mem_filter.mp (mem_pySort.mp hkb)).1
  have hshortnil : ∀ b ∈ e2.shorts, shortNew e2.idx b = [] := by
    intro b hb
    obtain ⟨kb, hkbf, rfl⟩ := List.mem_map.mp hb
    exact hallnil kb (List.mem_filter.mp hkbf).1
  have hfs1 : e2.fs1 = e.fs3 := regFoldFS_id hsortnil
  have hfs2 : e2.fs2 = e.fs3 := by
    show (if e2.shorts = [] then e2.fs1
      else shortFS e2.outputDir e2.idx e2.cfg e2.shorts e2.fs1) = e.fs3
    by_cases hs : e2.shorts = []
    · rw [if_pos hs]
      exact hfs1
    · rw [if_neg hs, hfs1]
      have hagg3 : e.fs3.isFile (aggPath e.outputDir e.cfg) = true :=
        env_agg_isFile_fs3 e hsl hs
      exact shortFS_id hagg3 hshortnil
  have hgroups : e2.groupsAll = [] := by
    show regGroups e2.idx e2.sortedReg ++
      (if e2.shorts = [] then [] else shortGroups e2.idx e2.shorts) = []
    rw [regGroups_eq_nil hsortnil]
    by_cases hs : e2.shorts = []
    · rw [if_pos hs]
      rfl
    · rw [if_neg hs, shortGroups_eq_nil hshortnil]
      rfl
  have htotal : e2.totalNew = 0 := by
    show regTotal e2.idx e2.sortedReg +
      (if e2.shorts = [] then 0 else shortTotal e2.idx e2.shorts) = 0
    rw [regTotal_zero hsortnil]
    by_cases hs : e2.shorts = []
    · rw [if_pos hs]
    · rw [if_neg hs, shortTotal_eq_zero hshortnil]
  have hfs3 : e2.fs3 = e.fs3 := by
    show (if e2.groupsAll ≠ [] ∧ e2.cfg.createImportLog = true then
        ilFS e2.outputDir e2.cfg e2.now e2.groupsAll e2.fs2 else e2.fs2) = e.fs3
    rw [if_neg (by rw [hgroups]; simp)]
    exact hfs2
  refine ⟨e2.summary, e2.logLive, ?_, htotal⟩
  have hrun := sync_highlights_live e2
  rw [hfs3] at hrun
  exact hrun

def c1Env : Env :=
  { nfkd := id, parseDate := fun _ => none, failR := noFail, content := c1Input,
    outputDir := "out".data,
    cfg := ⟨3, "Short Notes.md".data, "books".data, "short-notes".data,
      "Import Logs".data, true, true, true⟩,
    now := ⟨"T1".data, "F1".data, "H1".data⟩, fs0 := ⟨[], []⟩ }

/-- Witness for C1: a second run over the first run's output is a
no-op. -/
theorem C1_idempotence_witness :
    ((".md".data).isSuffixOf c1Env.cfg.shortNotesFilename = true) ∧
    (c1Env.cfg.shortNotesFilename.contains '/' = false) ∧
    ∃ s log,
      sync_highlights c1Env.nfkd noFail noFail c1Env.parseDate (some c1Env.content)
        c1Env.outputDir c1Env.cfg false ⟨"T2".data, "F2".data, "H2".data⟩ c1Env.fs3 =
        .ok (s, c1Env.fs3, log) ∧ s.newHighlights = 0 :=
  ⟨by decide, by decide,
   C1_idempotence c1Env ⟨"T2".data, "F2".data, "H2".data⟩ (by decide) (by decide)⟩

end KTO
